import Mathlib

/-!
Verification of the chat broker (`labs/lab02/backend/chatcore/chatcore.go`)

Also embedded: the user registry of lab02 (`labs/lab02/backend/user/user.go`)
the validators of lab05 (`userdomain/user.go`, `security/password.go`) and the
post model of lab04 (`models/post.go`).
Go strings are modelled as valid UTF-8 text; `len` is the byte length.

The broker is embedded as explicit state passing.

* Go channels are references. The routing table `users` therefore stores
  *handles* (indices into the channel store `chans`), so two subscriber ids may
  share one channel and a replaced channel stays observable in the store.
  A handle outside the store behaves like a nil channel: a send on it is never
  ready.
* Subscriber channels are open buffered queues; the broker never closes them.
* `select` with several ready cases chooses at random in Go; the choice is the
  explicit argument `pick` (`true` selects the `ctx.Done()` case).
* Go map iteration order is unspecified; the table is an association list with
  unique keys and `route_broadcast_perm` shows the order is irrelevant.
-/

/-- Go `error` values created with `errors.New`: identified by their text. -/
structure GoError where
  msg : String
deriving DecidableEq, Repr

/-- The standard-library value `context.Canceled`. -/
def context.Canceled : GoError := ⟨"context canceled"⟩

namespace chatcore

/-- `type Message struct` (chatcore.go, lines 12-18). -/
structure Message where
  Sender : String
  Recipient : String
  Content : String
  Broadcast : Bool
  Timestamp : Int
deriving DecidableEq, Repr

/-- A subscriber channel `make(chan Message, cap)`: pending messages, oldest
first, and the buffer capacity. -/
structure Chan where
  buf : List Message
  cap : Nat
deriving DecidableEq, Repr

/-- `type Broker struct` (lines 23-32) together with the store of subscriber
channels its handles point into. `ctx` is `true` once `b.ctx.Done()` is closed;
`input`/`inputClosed` are the buffer and the closed state of `b.input`;
`done` is `true` once `b.done` is closed. -/
structure Broker where
  ctx : Bool
  input : List Message
  inputClosed : Bool
  users : AList (fun _ : String => Nat)
  done : Bool
  closed : Bool
  chans : List Chan

/-- Capacity of the ingress channel: `make(chan Message, 100)` (line 39). -/
def inputCap : Nat := 100

/-- `NewBroker` (lines 35-43); `ctx` is the current state of the context and
`chans` the channels that exist in the program. -/
def NewBroker (ctx : Bool) (chans : List Chan) : Broker :=
  { ctx := ctx, input := [], inputClosed := false, users := ∅,
    done := false, closed := false, chans := chans }

/-- The non-blocking send `select { case ch <- msg: default: }` on one channel
(lines 66-69 and 75-78): enqueue when the buffer has room, otherwise drop. -/
def trySend (ch : Chan) (msg : Message) : Chan :=
  if ch.buf.length < ch.cap then { ch with buf := ch.buf ++ [msg] } else ch

/-- The non-blocking send through a handle into the channel store. -/
def sendTo (chans : List Chan) (h : Nat) (msg : Message) : List Chan :=
  match chans[h]? with
  | some ch => chans.set h (trySend ch msg)
  | none => chans

/-- The routing of one dequeued message (lines 62-81). -/
def route (b : Broker) (msg : Message) : Broker :=
  if msg.Broadcast then
    { b with chans := b.users.entries.foldl (fun cs e => sendTo cs e.2 msg) b.chans }
  else if msg.Recipient ≠ "" then
    match b.users.lookup msg.Recipient with
    | some h => { b with chans := sendTo b.chans h msg }
    | none => b
  else b

/-- The table entries a routing step attempts a send for, in iteration order:
the range of the loop at line 64, or the entry found at line 74. -/
def targets (b : Broker) (msg : Message) : List (Sigma (fun _ : String => Nat)) :=
  if msg.Broadcast then b.users.entries
  else if msg.Recipient ≠ "" then
    match b.users.lookup msg.Recipient with
    | some h => [⟨msg.Recipient, h⟩]
    | none => []
  else []

/-- How one pass through the body of the `for` loop of `Run` ends. -/
inductive RunOutcome where
  | continues (b : Broker)
  | returns (b : Broker)
  | blocks (b : Broker)
  | panics

/-- The cancellation case of `Run` (lines 49-57). Closing a channel that is
already closed panics in Go. -/
def onCancel (b : Broker) : RunOutcome :=
  if !b.closed then
    if b.inputClosed || b.done then .panics
    else .returns { b with closed := true, inputClosed := true, done := true }
  else .returns b

/-- The receive case of `Run` (lines 58-81), taken when `b.input` holds a
message or is closed. An empty buffer here means closed and drained. -/
def onReceive (b : Broker) : RunOutcome :=
  match b.input with
  | [] => .returns b
  | msg :: rest => .continues (route { b with input := rest } msg)

/-- One pass through the `select` of `Run` (lines 48-82). -/
def RunStep (pick : Bool) (b : Broker) : RunOutcome :=
  let recvReady := !b.input.isEmpty || b.inputClosed
  match b.ctx, recvReady with
  | false, false => .blocks b
  | true, false => onCancel b
  | false, true => onReceive b
  | true, true => if pick then onCancel b else onReceive b

/-- `Run` (lines 46-84) for at most `fuel` passes; `picks n` resolves the
`select` of pass `n` counted from `start`. Out of fuel the loop is still
running. -/
def RunFrom (picks : Nat → Bool) : Nat → Nat → Broker → RunOutcome
  | 0, _, b => .continues b
  | fuel + 1, start, b =>
    match RunStep (picks start) b with
    | .continues b1 => RunFrom picks fuel (start + 1) b1
    | out => out

/-- `Run` with a bound on the number of passes. -/
def Run (picks : Nat → Bool) (fuel : Nat) (b : Broker) : RunOutcome :=
  RunFrom picks fuel 0 b

/-- How a call of `SendMessage` ends. -/
inductive SendOutcome where
  | returned (err : Option GoError) (b : Broker)
  | blocks
  | panics

/-- The send case of the `select` in `SendMessage` (line 97): a send on a
closed channel panics. -/
def enqueue (b : Broker) (msg : Message) : SendOutcome :=
  if b.inputClosed then .panics
  else .returned none { b with input := b.input ++ [msg] }

/-- The `select` of `SendMessage` (lines 94-99), entered after the closed
check has passed. -/
def sendSelect (pick : Bool) (b : Broker) (msg : Message) : SendOutcome :=
  let sendReady := b.inputClosed || decide (b.input.length < inputCap)
  match b.ctx, sendReady with
  | false, false => .blocks
  | true, false => .returned (some context.Canceled) b
  | false, true => enqueue b msg
  | true, true => if pick then .returned (some context.Canceled) b else enqueue b msg

/-- `SendMessage` (lines 87-100), run without interleaving. -/
def SendMessage (pick : Bool) (b : Broker) (msg : Message) : SendOutcome :=
  if b.closed then .returned (some context.Canceled) b
  else sendSelect pick b msg

/-- `RegisterUser` (lines 103-107): `b.users[userID] = recv`. -/
def RegisterUser (b : Broker) (userID : String) (recv : Nat) : Broker :=
  { b with users := b.users.insert userID recv }

/-- `UnregisterUser` (lines 110-114): `delete(b.users, userID)`. -/
def UnregisterUser (b : Broker) (userID : String) : Broker :=
  { b with users := b.users.erase userID }

/-- Back-to-back calls of `SendMessage`, one per message: the error results
in call order and the final state, or `none` when a call blocks or panics. -/
def SendMessages (pick : Bool) : Broker → List Message → Option (List (Option GoError) × Broker)
  | b, [] => some ([], b)
  | b, msg :: rest =>
    match SendMessage pick b msg with
    | .returned err b1 =>
      match SendMessages pick b1 rest with
      | some (errs, b2) => some (err :: errs, b2)
      | none => none
    | _ => none


/-- Number of subscriber ids registered with the channel handle `h`. -/
def shares (b : Broker) (h : Nat) : Nat :=
  b.users.entries.countP (fun e => decide (e.2 = h))

/-- A unicast message from `s` to `r`. -/
def unicast (s r text : String) : Message :=
  { Sender := s, Recipient := r, Content := text, Broadcast := false, Timestamp := 0 }

/-- A broadcast message from `s`; the recipient field is `r`. -/
def broadcast (s r text : String) : Message :=
  { Sender := s, Recipient := r, Content := text, Broadcast := true, Timestamp := 0 }

/-- A running broker with two empty channels (capacities 1 and 2), the empty
id registered on channel 0 and `"bob"` on channel 1. -/
def demoBroker : Broker :=
  RegisterUser (RegisterUser (NewBroker false [⟨[], 1⟩, ⟨[], 2⟩]) "" 0) "bob" 1

/-- A running broker where `"slow"` sits on a full channel (handle 0) and
`"bob"` on an empty one (handle 1). -/
def busyBroker : Broker :=
  RegisterUser (RegisterUser
    (NewBroker false [⟨[unicast "carol" "slow" "old"], 1⟩, ⟨[], 2⟩]) "slow" 0) "bob" 1

/-- The state `demoBroker` reaches once its context is cancelled. -/
def cancelledBroker : Broker := { demoBroker with ctx := true }

/-- The state `cancelledBroker` reaches once `Run` has taken its cancellation
case. -/
def closedBroker : Broker :=
  { cancelledBroker with closed := true, inputClosed := true, done := true }

/-- A running broker on which the empty id was registered first with channel
0 and then again with channel 1. -/
def reconnectedBroker : Broker :=
  RegisterUser (RegisterUser (NewBroker false [⟨[], 1⟩, ⟨[], 1⟩]) "" 0) "" 1

/-- The scenario of the capacity-1 subscriber: a running broker with `"A"`
registered on an empty channel of capacity 1. -/
def scenarioBroker : Broker :=
  RegisterUser (NewBroker false [⟨[], 1⟩]) "A" 0

/-- `SendMessage` with one pass of the run loop scheduled between the closed
check (lines 88-90, lock released at line 90) and the `select` (line 94). -/
def SendMessageRace (runPick pick : Bool) (b : Broker) (msg : Message) : SendOutcome :=
  if b.closed then .returned (some context.Canceled) b
  else
    match RunStep runPick b with
    | .continues b1 => sendSelect pick b1 msg
    | .returns b1 => sendSelect pick b1 msg
    | .blocks b1 => sendSelect pick b1 msg
    | .panics => .panics

/-- A running broker where the ids `"a"` and `"b"` are registered with the same
empty channel of capacity 2. -/
def sharedBroker : Broker :=
  RegisterUser (RegisterUser (NewBroker false [⟨[], 2⟩]) "a" 0) "b" 0

/-- A running, uncancelled broker whose ingress queue holds 100 messages. -/
def saturatedBroker : Broker :=
  { demoBroker with input := List.replicate 100 (unicast "alice" "bob" "hi") }

end chatcore

namespace user

/-- `type User struct` of the registry (user.go, lines 12-16). -/
structure User where
  Name : String
  Email : String
  ID : String
deriving DecidableEq, Repr

/-- The loop of `containsAt` (lines 33-38) over the runes of the string. -/
def containsAtFrom : List Char → Bool
  | [] => false
  | c :: rest => if c = '@' then true else containsAtFrom rest

/-- `containsAt` (lines 32-39). -/
def containsAt (s : String) : Bool := containsAtFrom s.toList

/-- `User.Validate` (lines 19-30); `none` is the nil error. -/
def User.Validate (u : User) : Option GoError :=
  if u.Name = "" then some ⟨"name is required"⟩
  else if u.Email = "" || !containsAt u.Email then some ⟨"invalid email"⟩
  else if u.ID = "" then some ⟨"id is required"⟩
  else none

/-- `type UserManager struct` (lines 44-49). `ctx` is `none` for a nil context
and `some d` for a context whose `Done()` channel is closed exactly when `d`. -/
structure UserManager where
  ctx : Option Bool
  users : AList (fun _ : String => User)

/-- `NewUserManager` (lines 52-57): `context.Background()` is never done. -/
def NewUserManager : UserManager := { ctx := some false, users := ∅ }

/-- `NewUserManagerWithContext` (lines 60-65). -/
def NewUserManagerWithContext (ctx : Option Bool) : UserManager :=
  { ctx := ctx, users := ∅ }

/-- `AddUser` (lines 68-80): the error result and the manager afterwards. -/
def UserManager.AddUser (m : UserManager) (u : User) : Option GoError × UserManager :=
  match m.ctx with
  | some true => (some ⟨"context canceled"⟩, m)
  | _ => (none, { m with users := m.users.insert u.ID u })

/-- `RemoveUser` (lines 83-91). -/
def UserManager.RemoveUser (m : UserManager) (id : String) : Option GoError × UserManager :=
  match m.users.lookup id with
  | none => (some ⟨"not found"⟩, m)
  | some _ => (none, { m with users := m.users.erase id })

/-- `GetUser` (lines 94-102); `User{}` is the zero value. -/
def UserManager.GetUser (m : UserManager) (id : String) : User × Option GoError :=
  match m.users.lookup id with
  | some u => (u, none)
  | none => ({ Name := "", Email := "", ID := "" }, some ⟨"not found"⟩)

end user

/-- `unicode.IsSpace`, the white space `strings.TrimSpace` removes. -/
def unicodeIsSpace (c : Char) : Bool :=
  c = '\t' || c = '\n' || c.toNat = 0x0B || c.toNat = 0x0C || c = '\r' || c = ' ' ||
  c.toNat = 0x85 || c.toNat = 0xA0 || c.toNat = 0x1680 ||
  (0x2000 ≤ c.toNat && c.toNat ≤ 0x200A) || c.toNat = 0x2028 || c.toNat = 0x2029 ||
  c.toNat = 0x202F || c.toNat = 0x205F || c.toNat = 0x3000

/-- `strings.TrimSpace`: drop leading and trailing white space. -/
def strings.TrimSpace (s : String) : String :=
  ⟨((s.toList.dropWhile unicodeIsSpace).reverse.dropWhile unicodeIsSpace).reverse⟩

/-- The lower-case mapping of one rune, on the ASCII range. -/
def asciiToLower (c : Char) : Char :=
  if 'A' ≤ c ∧ c ≤ 'Z' then Char.ofNat (c.toNat + 32) else c

/-- `strings.ToLower` on strings whose letters are ASCII (the only strings it
is applied to after `ValidateEmail` has accepted them); runes outside ASCII are
kept. -/
def strings.ToLower (s : String) : String := ⟨s.toList.map asciiToLower⟩

/-- Go `len(s)`: the number of bytes of the UTF-8 string. -/
def goLen (s : String) : Nat := s.utf8ByteSize

/-- The character class `[A-Z]`. -/
def isUpperAZ (c : Char) : Bool := decide ('A' ≤ c) && decide (c ≤ 'Z')

/-- The character class `[a-z]`. -/
def isLowerAZ (c : Char) : Bool := decide ('a' ≤ c) && decide (c ≤ 'z')

/-- The character class `[0-9]`. -/
def isDigit09 (c : Char) : Bool := decide ('0' ≤ c) && decide (c ≤ '9')

/-- The character class `[a-zA-Z]`. -/
def isLetterAZ (c : Char) : Bool := isLowerAZ c || isUpperAZ c

/-- `regexp.MustCompile(cls).MatchString(s)` for an unanchored pattern that is
a single character class: some rune of `s` lies in the class. -/
def matchesClass (cls : Char → Bool) (s : String) : Bool := s.toList.any cls

namespace userdomain

/-- `type User struct` (userdomain/user.go, lines 11-18); times are instants. -/
structure User where
  ID : Int
  Email : String
  Name : String
  Password : String
  CreatedAt : Int
  UpdatedAt : Int
deriving DecidableEq, Repr

/-- The class `[a-zA-Z0-9._%+-]` of the email pattern. -/
def emailLocalChar (c : Char) : Bool :=
  isLetterAZ c || isDigit09 c || c = '.' || c = '_' || c = '%' || c = '+' || c = '-'

/-- The class `[a-zA-Z0-9.-]` of the email pattern. -/
def emailDomainChar (c : Char) : Bool :=
  isLetterAZ c || isDigit09 c || c = '.' || c = '-'

/-- The tail of the email pattern after the local part cut off at `i`: an `@`,
one or more domain characters, a dot, two or more letters, end of text; `j` is
the length of the domain part. -/
def emailTailAt (rest : List Char) (j : Nat) : Bool :=
  match rest with
  | c :: r =>
    if c = '@' then
      match r.drop j with
      | d :: t =>
        if d = '.' then
          !(r.take j).isEmpty && (r.take j).all emailDomainChar &&
            decide (2 ≤ t.length) && t.all isLetterAZ
        else false
      | [] => false
    else false
  | [] => false

/-- The anchored pattern of `ValidateEmail` (line 67): one or more local
characters, then the tail; every way of cutting the text is tried. -/
def emailRe (s : List Char) : Bool :=
  (List.range (s.length + 1)).any fun i =>
    (List.range (s.length + 1)).any fun j =>
      !(s.take i).isEmpty && (s.take i).all emailLocalChar && emailTailAt (s.drop i) j

/-- `ValidateEmail` (lines 61-72). -/
def ValidateEmail (email : String) : Option GoError :=
  let email := strings.TrimSpace email
  if email = "" then some ⟨"email cannot be empty"⟩
  else if !emailRe email.toList then some ⟨"invalid email format"⟩
  else none

/-- `ValidateName` (lines 75-87). -/
def ValidateName (name : String) : Option GoError :=
  let name := strings.TrimSpace name
  if name = "" then some ⟨"name cannot be empty"⟩
  else if goLen name < 2 then some ⟨"name must be at least 2 characters"⟩
  else if goLen name > 50 then some ⟨"name must be at most 50 characters"⟩
  else none

/-- `ValidatePassword` (lines 91-110). -/
def ValidatePassword (password : String) : Option GoError :=
  if goLen password < 8 then some ⟨"password must be at least 8 characters"⟩
  else if !matchesClass isUpperAZ password then
    some ⟨"password must contain at least one uppercase letter"⟩
  else if !matchesClass isLowerAZ password then
    some ⟨"password must contain at least one lowercase letter"⟩
  else if !matchesClass isDigit09 password then
    some ⟨"password must contain at least one number"⟩
  else none

/-- `NewUser` (lines 26-44); `now` is the value of `time.Now()`. -/
def NewUser (now : Int) (email name password : String) : Except GoError User :=
  match ValidateEmail email with
  | some err => .error err
  | none =>
    match ValidateName name with
    | some err => .error err
    | none =>
      match ValidatePassword password with
      | some err => .error err
      | none =>
        .ok { ID := 0, Email := strings.ToLower (strings.TrimSpace email),
              Name := strings.TrimSpace name, Password := password,
              CreatedAt := now, UpdatedAt := now }

/-- `User.Validate` (lines 47-58). -/
def User.Validate (u : User) : Option GoError :=
  match ValidateEmail u.Email with
  | some err => some err
  | none =>
    match ValidateName u.Name with
    | some err => some err
    | none => ValidatePassword u.Password

/-- A name of 51 letters. -/
def name51 : String := String.mk (List.replicate 51 'a')

/-- A name of 50 letters. -/
def name50 : String := String.mk (List.replicate 50 'a')

end userdomain

namespace security

/-- `ValidatePassword` of the password service (password.go, lines 57-79). -/
def ValidatePassword (password : String) : Option GoError :=
  if password = "" then some ⟨"password cannot be empty"⟩
  else if goLen password < 6 then some ⟨"password must be at least 6 characters long"⟩
  else if !matchesClass isLetterAZ password then
    some ⟨"password must contain at least one letter"⟩
  else if !matchesClass isDigit09 password then
    some ⟨"password must contain at least one number"⟩
  else none

end security

namespace models

/-- `type Post struct` (models/post.go, lines 11-19); times are instants. -/
structure Post where
  ID : Int
  UserID : Int
  Title : String
  Content : String
  Published : Bool
  CreatedAt : Int
  UpdatedAt : Int
deriving DecidableEq, Repr

/-- `type CreatePostRequest struct` (lines 22-27). -/
structure CreatePostRequest where
  UserID : Int
  Title : String
  Content : String
  Published : Bool
deriving DecidableEq, Repr

/-- `Post.Validate` (lines 37-55); `none` is the nil error. -/
def Post.Validate (p : Post) : Option GoError :=
  if strings.TrimSpace p.Title = "" then some ⟨"title cannot be empty"⟩
  else if goLen (strings.TrimSpace p.Title) < 5 then
    some ⟨"title must be at least 5 characters long"⟩
  else if p.UserID ≤ 0 then some ⟨"user_id must be greater than 0"⟩
  else if p.Published && decide (strings.TrimSpace p.Content = "") then
    some ⟨"content cannot be empty when post is published"⟩
  else none

/-- `CreatePostRequest.Validate` (lines 58-76). -/
def CreatePostRequest.Validate (req : CreatePostRequest) : Option GoError :=
  if strings.TrimSpace req.Title = "" then some ⟨"title cannot be empty"⟩
  else if goLen (strings.TrimSpace req.Title) < 5 then
    some ⟨"title must be at least 5 characters long"⟩
  else if req.UserID ≤ 0 then some ⟨"user_id must be greater than 0"⟩
  else if req.Published && decide (strings.TrimSpace req.Content = "") then
    some ⟨"content cannot be empty when post is published"⟩
  else none

/-- `CreatePostRequest.ToPost` (lines 79-89); `now` is the value of
`time.Now()`, the `ID` keeps its zero value. -/
def CreatePostRequest.ToPost (req : CreatePostRequest) (now : Int) : Post :=
  { ID := 0, UserID := req.UserID, Title := req.Title, Content := req.Content,
    Published := req.Published, CreatedAt := now, UpdatedAt := now }

end models

namespace chatcore

theorem sendTo_length (cs : List Chan) (h : Nat) (m : Message) :
    (sendTo cs h m).length = cs.length := by
  unfold sendTo
  cases hc : cs[h]? <;> simp

theorem sendTo_getElem?_self (cs : List Chan) (h : Nat) (m : Message) :
    (sendTo cs h m)[h]? = (cs[h]?).map (fun ch => trySend ch m) := by
  unfold sendTo
  cases hc : cs[h]? with
  | none => simp [hc]
  | some ch =>
    have hlt : h < cs.length := (List.getElem?_eq_some_iff.mp hc).1
    simp [hlt]

theorem sendTo_getElem?_ne (cs : List Chan) {h c : Nat} (m : Message) (hne : h ≠ c) :
    (sendTo cs h m)[c]? = cs[c]? := by
  unfold sendTo
  cases hc : cs[h]? with
  | none => rfl
  | some ch => simp [List.getElem?_set_ne hne]

/-- Contents of a channel after `n` consecutive non-blocking sends of `m`. -/
theorem trySend_replicate (ch : Chan) (m : Message) (n : Nat) :
    (⟨(trySend ch m).buf ++ List.replicate
        (min ((trySend ch m).cap - (trySend ch m).buf.length) n) m, (trySend ch m).cap⟩ : Chan)
      = ⟨ch.buf ++ List.replicate (min (ch.cap - ch.buf.length) (n + 1)) m, ch.cap⟩ := by
  unfold trySend
  split
  · rename_i hlt
    have e : min (ch.cap - ch.buf.length) (n + 1)
        = min (ch.cap - (ch.buf.length + 1)) n + 1 := by omega
    simp [e, List.replicate_succ]
  · rename_i hge
    have e1 : ch.cap - ch.buf.length = 0 := by omega
    simp [e1]

theorem deliver_getElem? (m : Message) (es : List (Sigma (fun _ : String => Nat))) :
    ∀ (cs : List Chan) (c : Nat),
      (es.foldl (fun cs e => sendTo cs e.2 m) cs)[c]? =
        (cs[c]?).map (fun ch => (⟨ch.buf ++ List.replicate
          (min (ch.cap - ch.buf.length) (es.countP (fun e => decide (e.2 = c)))) m, ch.cap⟩ : Chan)) := by
  induction es with
  | nil =>
    intro cs c
    cases hc : cs[c]? <;> simp [hc]
  | cons e es ih =>
    intro cs c
    rw [List.foldl_cons, ih]
    by_cases hec : e.2 = c
    · subst hec
      rw [sendTo_getElem?_self]
      cases hc : cs[e.2]? with
      | none => simp
      | some ch =>
        simp only [Option.map_some', List.countP_cons, decide_True, if_true]
        rw [trySend_replicate]
    · rw [sendTo_getElem?_ne cs m hec]
      simp [List.countP_cons, hec]

theorem deliver_length (m : Message) (es : List (Sigma (fun _ : String => Nat))) :
    ∀ (cs : List Chan), (es.foldl (fun cs e => sendTo cs e.2 m) cs).length = cs.length := by
  induction es with
  | nil => intro cs; rfl
  | cons e es ih => intro cs; rw [List.foldl_cons, ih, sendTo_length]


theorem route_unicast (b : Broker) (msg : Message) (hB : msg.Broadcast = false)
    (hR : msg.Recipient ≠ "") :
    route b msg = match b.users.lookup msg.Recipient with
      | some h => { b with chans := sendTo b.chans h msg }
      | none => b := by
  simp [route, hB, hR]

theorem route_broadcast (b : Broker) (msg : Message) (hB : msg.Broadcast = true) :
    route b msg =
      { b with chans := b.users.entries.foldl (fun cs e => sendTo cs e.2 msg) b.chans } := by
  simp [route, hB]

theorem route_empty_recipient (b : Broker) (msg : Message) (hB : msg.Broadcast = false)
    (hR : msg.Recipient = "") : route b msg = b := by
  simp [route, hB, hR]

/-- C1 (as stated, refuted): the empty id is registered on a channel with free
capacity, yet a unicast message whose recipient is the empty id is not appended
to that channel. -/
theorem unicast_routing_empty_id_counterexample :
    (unicast "alice" "" "hi").Broadcast = false ∧
    (unicast "alice" "" "hi").Recipient = "" ∧
    demoBroker.users.lookup "" = some 0 ∧
    demoBroker.chans[0]? = some ⟨[], 1⟩ ∧
    (route demoBroker (unicast "alice" "" "hi")).chans[0]? = some ⟨[], 1⟩ ∧
    (route demoBroker (unicast "alice" "" "hi")).chans[0]?
      ≠ some ⟨[] ++ [unicast "alice" "" "hi"], 1⟩ := by
  decide

/-- C1 (amended): for a non-empty subscriber id `X` and a message with
`Broadcast = false` and `Recipient = X`, the routing step appends the message
to the channel of `X` when `X` is registered and that channel has free
capacity, changing no other channel and no other part of the broker; when `X`
is not registered the step changes nothing. -/
theorem unicast_routing (b : Broker) (X : String) (msg : Message)
    (hB : msg.Broadcast = false) (hR : msg.Recipient = X) (hX : X ≠ "") :
    (∀ (h : Nat) (ch : Chan), b.users.lookup X = some h → b.chans[h]? = some ch →
        ch.buf.length < ch.cap →
        (route b msg).chans[h]? = some ⟨ch.buf ++ [msg], ch.cap⟩ ∧
        (∀ c, c ≠ h → (route b msg).chans[c]? = b.chans[c]?) ∧
        (route b msg).chans.length = b.chans.length ∧
        (route b msg).users = b.users ∧ (route b msg).input = b.input) ∧
    (b.users.lookup X = none → route b msg = b) := by
  subst hR
  refine ⟨?_, ?_⟩
  · intro h ch hl hc hfree
    have hr : route b msg = { b with chans := sendTo b.chans h msg } := by
      rw [route_unicast b msg hB hX, hl]
    rw [hr]
    refine ⟨?_, ?_, ?_, rfl, rfl⟩
    · show (sendTo b.chans h msg)[h]? = _
      rw [sendTo_getElem?_self, hc]
      simp [trySend, hfree]
    · intro c hne
      exact sendTo_getElem?_ne b.chans msg (Ne.symm hne)
    · exact sendTo_length b.chans h msg
  · intro hl
    rw [route_unicast b msg hB hX, hl]

theorem unicast_routing_witness :
    ((route demoBroker (unicast "alice" "bob" "hi")).chans[1]?
        = some ⟨[] ++ [unicast "alice" "bob" "hi"], 2⟩ ∧
      (∀ c, c ≠ 1 → (route demoBroker (unicast "alice" "bob" "hi")).chans[c]?
        = demoBroker.chans[c]?) ∧
      (route demoBroker (unicast "alice" "bob" "hi")).chans.length = demoBroker.chans.length ∧
      (route demoBroker (unicast "alice" "bob" "hi")).users = demoBroker.users ∧
      (route demoBroker (unicast "alice" "bob" "hi")).input = demoBroker.input) ∧
    route demoBroker (unicast "alice" "carol" "hi") = demoBroker :=
  ⟨(unicast_routing demoBroker "bob" (unicast "alice" "bob" "hi") rfl rfl (by decide)).1
      1 ⟨[], 2⟩ (by decide) (by decide) (by decide),
   (unicast_routing demoBroker "carol" (unicast "alice" "carol" "hi") rfl rfl (by decide)).2
      (by decide)⟩

theorem shares_pos (b : Broker) {id : String} {h : Nat} (hl : b.users.lookup id = some h) :
    1 ≤ shares b h := by
  have hmem : (⟨id, h⟩ : Sigma (fun _ : String => Nat)) ∈ b.users.entries :=
    AList.mem_lookup_iff.mp (by rw [hl]; exact rfl)
  exact List.countP_pos_iff.mpr ⟨_, hmem, by simp⟩

theorem route_broadcast_getElem? (b : Broker) (msg : Message) (hB : msg.Broadcast = true)
    (c : Nat) :
    (route b msg).chans[c]? = (b.chans[c]?).map (fun ch => (⟨ch.buf ++ List.replicate
      (min (ch.cap - ch.buf.length) (shares b c)) msg, ch.cap⟩ : Chan)) := by
  rw [route_broadcast b msg hB]
  exact deliver_getElem? msg b.users.entries b.chans c

/-- C2: when the run loop routes a message with `Broadcast = true`, every
registered subscriber whose channel is not full gets the message appended at
the tail of its channel (once per id registered on that channel while room
remains, so exactly once when the channel belongs to one id); with no
subscriber registered the step changes nothing and the loop just continues. -/
theorem broadcast_routing (b : Broker) (msg : Message) (hB : msg.Broadcast = true) :
    (∀ (id : String) (h : Nat) (ch : Chan), b.users.lookup id = some h →
        b.chans[h]? = some ch →
        ch.buf.length < ch.cap →
        (route b msg).chans[h]? = some ⟨ch.buf ++ msg :: List.replicate
          (min (ch.cap - ch.buf.length) (shares b h) - 1) msg, ch.cap⟩ ∧
        (shares b h = 1 → (route b msg).chans[h]? = some ⟨ch.buf ++ [msg], ch.cap⟩)) ∧
    (b.users = ∅ → route b msg = b ∧
        ∀ rest, onReceive { b with input := msg :: rest }
          = .continues { b with input := rest }) := by
  refine ⟨?_, ?_⟩
  · intro id h ch hl hc hfree
    have hpos := shares_pos b hl
    have hk : min (ch.cap - ch.buf.length) (shares b h)
        = (min (ch.cap - ch.buf.length) (shares b h) - 1) + 1 := by omega
    have key : (route b msg).chans[h]? = some ⟨ch.buf ++ msg :: List.replicate
          (min (ch.cap - ch.buf.length) (shares b h) - 1) msg, ch.cap⟩ := by
      rw [route_broadcast_getElem? b msg hB, hc, Option.map_some']
      conv_lhs => rw [hk, List.replicate_succ]
    refine ⟨key, ?_⟩
    intro h1
    rw [key, h1]
    have : min (ch.cap - ch.buf.length) 1 - 1 = 0 := by omega
    rw [this]
    rfl
  · intro he
    have hnil : b.users.entries = [] := by rw [he]; rfl
    have hr : route b msg = b := by
      rw [route_broadcast b msg hB, hnil]
      rfl
    refine ⟨hr, ?_⟩
    intro rest
    show RunOutcome.continues (route { b with input := rest } msg) = _
    rw [route_broadcast _ msg hB]
    show RunOutcome.continues { b with
      input := rest
      chans := b.users.entries.foldl (fun cs e => sendTo cs e.2 msg) b.chans } = _
    rw [hnil]
    rfl

theorem broadcast_routing_witness :
    ((route demoBroker (broadcast "alice" "" "hi")).chans[1]?
        = some ⟨[] ++ broadcast "alice" "" "hi" :: List.replicate
            (min (2 - ([] : List Message).length) (shares demoBroker 1) - 1)
            (broadcast "alice" "" "hi"), 2⟩ ∧
      (shares demoBroker 1 = 1 → (route demoBroker (broadcast "alice" "" "hi")).chans[1]?
        = some ⟨[] ++ [broadcast "alice" "" "hi"], 2⟩)) ∧
    (route (NewBroker false []) (broadcast "alice" "" "hi") = NewBroker false [] ∧
      ∀ rest, onReceive { NewBroker false [] with input := broadcast "alice" "" "hi" :: rest }
        = .continues { NewBroker false [] with input := rest }) :=
  ⟨(broadcast_routing demoBroker (broadcast "alice" "" "hi") rfl).1
      "bob" 1 ⟨[], 2⟩ (by decide) (by decide) (by decide),
   (broadcast_routing (NewBroker false []) (broadcast "alice" "" "hi") rfl).2 rfl⟩

/-- The result of a broadcast does not depend on the iteration order of the
routing table. -/
theorem route_broadcast_perm (msg : Message) (cs : List Chan)
    {es1 es2 : List (Sigma (fun _ : String => Nat))} (hp : es1.Perm es2) :
    es1.foldl (fun cs e => sendTo cs e.2 msg) cs
      = es2.foldl (fun cs e => sendTo cs e.2 msg) cs := by
  apply List.ext_getElem?
  intro c
  rw [deliver_getElem?, deliver_getElem?, hp.countP_eq]

theorem route_full_unchanged (b : Broker) (msg : Message) (h : Nat) (ch : Chan)
    (hc : b.chans[h]? = some ch) (hfull : ch.cap ≤ ch.buf.length) :
    (route b msg).chans[h]? = some ch := by
  have hts : trySend ch msg = ch := by
    unfold trySend
    rw [if_neg (by omega)]
  cases hB : msg.Broadcast with
  | true =>
    rw [route_broadcast_getElem? b msg hB, hc, Option.map_some']
    have e0 : ch.cap - ch.buf.length = 0 := by omega
    simp [e0]
  | false =>
    by_cases hR : msg.Recipient = ""
    · rw [route_empty_recipient b msg hB hR, hc]
    · rw [route_unicast b msg hB hR]
      cases hl : b.users.lookup msg.Recipient with
      | none => exact hc
      | some t =>
        show (sendTo b.chans t msg)[h]? = some ch
        by_cases hth : t = h
        · subst hth
          rw [sendTo_getElem?_self, hc, Option.map_some', hts]
        · rw [sendTo_getElem?_ne b.chans msg hth, hc]

theorem shares_unregister_ne (b : Broker) {f : String} {hf c : Nat}
    (hl : b.users.lookup f = some hf) (hne : hf ≠ c) :
    shares (UnregisterUser b f) c = shares b c := by
  have hmem : f ∈ b.users.entries.keys := by
    have : f ∈ b.users := AList.lookup_isSome.mp (by rw [hl]; rfl)
    exact this
  obtain ⟨v, l1, l2, _, hsplit, hker⟩ := List.exists_of_kerase hmem
  have hv : v = hf := by
    have h1 : (⟨f, v⟩ : Sigma (fun _ : String => Nat)) ∈ b.users.entries := by
      rw [hsplit]; simp
    have h2 : v ∈ b.users.lookup f := AList.mem_lookup_iff.mpr h1
    rw [hl] at h2
    exact (Option.some.inj h2).symm
  subst hv
  show List.countP _ (List.kerase f b.users.entries) = List.countP _ b.users.entries
  rw [hker, hsplit]
  simp [List.countP_append, List.countP_cons, hne]

/-- C3: in every routing step a channel that is already at capacity keeps its
contents exactly (the delivery is dropped, the step itself succeeds); in a
broadcast a full subscriber changes nothing for the others: the step leaves
every channel as it would without that subscriber in the table, and each
registered subscriber whose channel is not full still gets the message. -/
theorem drop_on_full (b : Broker) (msg : Message) :
    (∀ (h : Nat) (ch : Chan), b.chans[h]? = some ch → ch.cap ≤ ch.buf.length →
        (route b msg).chans[h]? = some ch) ∧
    (∀ rest, onReceive { b with input := msg :: rest }
        = .continues (route { b with input := rest } msg)) ∧
    (msg.Broadcast = true →
      ∀ (f : String) (hf : Nat) (chf : Chan), b.users.lookup f = some hf →
        b.chans[hf]? = some chf →
        chf.cap ≤ chf.buf.length →
        (route b msg).chans = (route (UnregisterUser b f) msg).chans ∧
        ∀ (id : String) (h : Nat) (ch : Chan), b.users.lookup id = some h →
          b.chans[h]? = some ch →
          ch.buf.length < ch.cap →
          ∃ more, (route b msg).chans[h]? = some ⟨ch.buf ++ msg :: more, ch.cap⟩) := by
  refine ⟨fun h ch hc hfull => route_full_unchanged b msg h ch hc hfull,
    fun rest => rfl, ?_⟩
  intro hB f hf chf hl hc hfull
  refine ⟨?_, ?_⟩
  · apply List.ext_getElem?
    intro c
    rw [route_broadcast_getElem? b msg hB, route_broadcast_getElem? _ msg hB]
    show _ = (b.chans[c]?).map _
    by_cases hcf : hf = c
    · subst hcf
      rw [hc]
      have e0 : chf.cap - chf.buf.length = 0 := by omega
      simp [e0]
    · rw [shares_unregister_ne b hl hcf]
  · intro id h ch hl2 hc2 hfree
    have hpos := shares_pos b hl2
    have hk : min (ch.cap - ch.buf.length) (shares b h)
        = (min (ch.cap - ch.buf.length) (shares b h) - 1) + 1 := by omega
    refine ⟨List.replicate (min (ch.cap - ch.buf.length) (shares b h) - 1) msg, ?_⟩
    rw [route_broadcast_getElem? b msg hB, hc2, Option.map_some']
    conv_lhs => rw [hk, List.replicate_succ]

theorem drop_on_full_witness :
    (route busyBroker (broadcast "alice" "" "hi")).chans[0]?
        = some ⟨[unicast "carol" "slow" "old"], 1⟩ ∧
    (route busyBroker (broadcast "alice" "" "hi")).chans
        = (route (UnregisterUser busyBroker "slow") (broadcast "alice" "" "hi")).chans ∧
    ∃ more, (route busyBroker (broadcast "alice" "" "hi")).chans[1]?
        = some ⟨[] ++ broadcast "alice" "" "hi" :: more, 2⟩ :=
  ⟨(drop_on_full busyBroker (broadcast "alice" "" "hi")).1 0
      ⟨[unicast "carol" "slow" "old"], 1⟩ (by decide) (by decide),
   ((drop_on_full busyBroker (broadcast "alice" "" "hi")).2.2 rfl "slow" 0
      ⟨[unicast "carol" "slow" "old"], 1⟩ (by decide) (by decide) (by decide)).1,
   ((drop_on_full busyBroker (broadcast "alice" "" "hi")).2.2 rfl "slow" 0
      ⟨[unicast "carol" "slow" "old"], 1⟩ (by decide) (by decide) (by decide)).2
      "bob" 1 ⟨[], 2⟩ (by decide) (by decide) (by decide)⟩

/-- C4: once the closed flag is set, every `SendMessage` call returns an error
and hands back the broker state unchanged (ingress queue, routing table and
every subscriber channel included), whatever the message and the scheduling. -/
theorem send_after_close (b : Broker) (hc : b.closed = true) (pick : Bool) (msg : Message) :
    ∃ e, SendMessage pick b msg = .returned (some e) b := by
  refine ⟨context.Canceled, ?_⟩
  simp [SendMessage, hc]

theorem send_after_close_witness :
    ∃ e, SendMessage false closedBroker (unicast "alice" "bob" "hi")
      = .returned (some e) closedBroker :=
  send_after_close closedBroker rfl false (unicast "alice" "bob" "hi")

/-- C5 (as stated, refuted): the error returned on a closed broker and the
error returned when the context is cancelled at the enqueue attempt are the
same value, `context.Canceled`. -/
theorem send_errors_distinct_counterexample :
    closedBroker.closed = true ∧
    cancelledBroker.closed = false ∧ cancelledBroker.ctx = true ∧
    SendMessage true closedBroker (unicast "alice" "bob" "hi")
      = .returned (some context.Canceled) closedBroker ∧
    SendMessage true cancelledBroker (unicast "alice" "bob" "hi")
      = .returned (some context.Canceled) cancelledBroker :=
  ⟨rfl, rfl, rfl, rfl, rfl⟩

/-- C5 (amended): `SendMessage` reports a single error value. On a closed
broker it returns `context.Canceled`; on a broker that is not closed whose
context is cancelled, it returns the same `context.Canceled` when the `select`
takes the cancellation case; and any error it returns is `context.Canceled`. -/
theorem send_error_is_canceled (pick : Bool) (b : Broker) (msg : Message) :
    (b.closed = true → SendMessage pick b msg = .returned (some context.Canceled) b) ∧
    (b.closed = false → b.ctx = true →
      SendMessage true b msg = .returned (some context.Canceled) b) ∧
    (∀ e b1, SendMessage pick b msg = .returned (some e) b1 → e = context.Canceled) := by
  refine ⟨?_, ?_, ?_⟩
  · intro hc
    simp [SendMessage, hc]
  · intro hc hx
    cases hi : b.inputClosed <;>
      by_cases hl : b.input.length < inputCap <;>
      simp [SendMessage, sendSelect, hc, hx, hi, hl]
  · intro e b1
    unfold SendMessage sendSelect enqueue
    cases b.closed <;> cases b.ctx <;> cases b.inputClosed <;> cases pick <;>
      by_cases hl : b.input.length < inputCap <;> simp [hl] <;>
      (intro h _; exact h.symm)

theorem send_error_is_canceled_witness :
    SendMessage false closedBroker (unicast "alice" "bob" "hi")
      = .returned (some context.Canceled) closedBroker ∧
    SendMessage true cancelledBroker (unicast "alice" "bob" "hi")
      = .returned (some context.Canceled) cancelledBroker ∧
    (⟨"context canceled"⟩ : GoError) = context.Canceled :=
  ⟨(send_error_is_canceled false closedBroker (unicast "alice" "bob" "hi")).1 rfl,
   (send_error_is_canceled false cancelledBroker (unicast "alice" "bob" "hi")).2.1 rfl rfl,
   (send_error_is_canceled false closedBroker (unicast "alice" "bob" "hi")).2.2
      ⟨"context canceled"⟩ closedBroker rfl⟩

theorem erase_absent (s : AList (fun _ : String => Nat)) (id : String)
    (h : s.lookup id = none) : s.erase id = s := by
  apply AList.ext
  show List.kerase id s.entries = s.entries
  exact List.kerase_of_not_mem_keys (AList.lookup_eq_none.mp h)

/-- C7: `UnregisterUser` is idempotent: applied twice it yields the state it
yields applied once, and on an id that is not registered it leaves the whole
broker state unchanged. It has no error result. -/
theorem unregister_idempotent (b : Broker) (id : String) :
    UnregisterUser (UnregisterUser b id) id = UnregisterUser b id ∧
    (b.users.lookup id = none → UnregisterUser b id = b) := by
  refine ⟨?_, ?_⟩
  · show ({ b with users := (b.users.erase id).erase id } : Broker)
      = { b with users := b.users.erase id }
    rw [erase_absent (b.users.erase id) id (AList.lookup_erase id b.users)]
  · intro h
    show ({ b with users := b.users.erase id } : Broker) = b
    rw [erase_absent b.users id h]

theorem unregister_idempotent_witness :
    UnregisterUser (UnregisterUser demoBroker "bob") "bob" = UnregisterUser demoBroker "bob" ∧
    UnregisterUser demoBroker "carol" = demoBroker :=
  ⟨(unregister_idempotent demoBroker "bob").1,
   (unregister_idempotent demoBroker "carol").2 (by decide)⟩

/-- C9: a message with `Broadcast = false` and an empty `Recipient` is accepted
by `SendMessage` on a running broker (nil is returned when the ingress queue
has room; a full queue suspends the caller, it never yields an error) and the
routing step delivers it to nobody: the broker state, every subscriber channel
included, is unchanged for every routing table. -/
theorem empty_recipient_noop (b : Broker) (msg : Message)
    (hB : msg.Broadcast = false) (hR : msg.Recipient = "") :
    (b.closed = false → b.ctx = false → b.inputClosed = false → ∀ pick,
      (b.input.length < inputCap →
        SendMessage pick b msg = .returned none { b with input := b.input ++ [msg] }) ∧
      (inputCap ≤ b.input.length → SendMessage pick b msg = .blocks)) ∧
    route b msg = b ∧
    (∀ rest, onReceive { b with input := msg :: rest }
      = .continues { b with input := rest }) := by
  refine ⟨?_, route_empty_recipient b msg hB hR, ?_⟩
  · intro hc hx hi pick
    refine ⟨?_, ?_⟩
    · intro hl
      simp [SendMessage, sendSelect, enqueue, hc, hx, hi, hl]
    · intro hl
      have hl2 : ¬ b.input.length < inputCap := by omega
      simp [SendMessage, sendSelect, hc, hx, hi, hl2]
  · intro rest
    show RunOutcome.continues (route { b with input := rest } msg) = _
    rw [route_empty_recipient _ msg hB hR]

theorem empty_recipient_noop_witness :
    SendMessage false demoBroker (unicast "alice" "" "hi")
      = .returned none { demoBroker with input := demoBroker.input ++ [unicast "alice" "" "hi"] } ∧
    route demoBroker (unicast "alice" "" "hi") = demoBroker ∧
    demoBroker.users.lookup "" = some 0 :=
  ⟨((empty_recipient_noop demoBroker (unicast "alice" "" "hi") rfl rfl).1
      rfl rfl rfl false).1 (by decide),
   (empty_recipient_noop demoBroker (unicast "alice" "" "hi") rfl rfl).2.1,
   by decide⟩

/-- C10: whenever `SendMessage` returns nil, the message has been appended at
the tail of the ingress queue (the length grows by exactly one, the earlier
entries stay in place) and nothing else changed: routing table, subscriber
channels, flags. -/
theorem send_success_enqueues (pick : Bool) (b b1 : Broker) (msg : Message)
    (h : SendMessage pick b msg = .returned none b1) :
    b1.input = b.input ++ [msg] ∧
    b1.input.length = b.input.length + 1 ∧
    (∀ i, i < b.input.length → b1.input[i]? = b.input[i]?) ∧
    b1.users = b.users ∧ b1.chans = b.chans ∧
    b1 = { b with input := b.input ++ [msg] } := by
  have key : b1 = { b with input := b.input ++ [msg] } := by
    revert h
    unfold SendMessage sendSelect enqueue
    cases b.closed <;> cases b.ctx <;> cases b.inputClosed <;> cases pick <;>
      by_cases hl : b.input.length < inputCap <;> simp [hl] <;>
      (intro h; exact h.symm)
  subst key
  refine ⟨rfl, by simp, ?_, rfl, rfl, rfl⟩
  intro i hi
  show (b.input ++ [msg])[i]? = b.input[i]?
  exact List.getElem?_append_left hi

theorem send_success_enqueues_witness :
    SendMessage false demoBroker (unicast "alice" "bob" "hi")
      = .returned none { demoBroker with input := [unicast "alice" "bob" "hi"] } ∧
    ({ demoBroker with input := [unicast "alice" "bob" "hi"] } : Broker).input
      = demoBroker.input ++ [unicast "alice" "bob" "hi"] ∧
    ({ demoBroker with input := [unicast "alice" "bob" "hi"] } : Broker).chans
      = demoBroker.chans :=
  ⟨rfl,
   (send_success_enqueues false demoBroker
    { demoBroker with input := [unicast "alice" "bob" "hi"] }
    (unicast "alice" "bob" "hi") rfl).1,
   (send_success_enqueues false demoBroker
    { demoBroker with input := [unicast "alice" "bob" "hi"] }
    (unicast "alice" "bob" "hi") rfl).2.2.2.2.1⟩

theorem targets_subset (b : Broker) (msg : Message) :
    ∀ e ∈ targets b msg, e ∈ b.users.entries := by
  intro e he
  unfold targets at he
  split at he
  · exact he
  · split at he
    · cases hl : b.users.lookup msg.Recipient with
      | none => simp [hl] at he
      | some t =>
        simp only [hl, List.mem_singleton] at he
        subst he
        exact AList.mem_lookup_iff.mp (by rw [hl]; exact rfl)
    · simp at he

theorem route_eq_targets (b : Broker) (msg : Message) :
    route b msg
      = { b with chans := (targets b msg).foldl (fun cs e => sendTo cs e.2 msg) b.chans } := by
  unfold route targets
  split
  · rfl
  · split
    · cases hl : b.users.lookup msg.Recipient <;> rfl
    · rfl

theorem deliver_untouched (msg : Message) (es : List (Sigma (fun _ : String => Nat)))
    (cs : List Chan) (c : Nat) (hno : ∀ e ∈ es, e.2 ≠ c) :
    (es.foldl (fun cs e => sendTo cs e.2 msg) cs)[c]? = cs[c]? := by
  have h0 : es.countP (fun e => decide (e.2 = c)) = 0 := by
    rw [List.countP_eq_zero]
    intro e he
    simpa using hno e he
  rw [deliver_getElem?, h0]
  cases cs[c]? <;> simp

theorem entry_of_insert (s : AList (fun _ : String => Nat)) (id : String) (ch : Nat)
    (e : Sigma (fun _ : String => Nat)) (he : e ∈ (s.insert id ch).entries) :
    (e.1 = id ∧ e.2 = ch) ∨ (e.1 ≠ id ∧ e ∈ s.entries) := by
  obtain ⟨k, v⟩ := e
  have hv : v ∈ (s.insert id ch).lookup k := AList.mem_lookup_iff.mpr he
  by_cases hk : k = id
  · subst hk
    rw [AList.lookup_insert] at hv
    exact Or.inl ⟨rfl, (Option.some.inj hv).symm⟩
  · rw [AList.lookup_insert_ne hk] at hv
    exact Or.inr ⟨hk, AList.mem_lookup_iff.mp hv⟩

/-- C6 (as stated, refuted): the empty id is registered with channel 0 and then
with channel 1; a unicast message addressed to that id is afterwards offered to
no channel at all, so not to channel 1 either, which stays empty. -/
theorem reregister_empty_id_counterexample :
    reconnectedBroker.users.lookup "" = some 1 ∧
    (unicast "alice" "" "hi").Recipient = "" ∧
    targets reconnectedBroker (unicast "alice" "" "hi") = [] ∧
    reconnectedBroker.chans[1]? = some ⟨[], 1⟩ ∧
    (route reconnectedBroker (unicast "alice" "" "hi")).chans[1]? = some ⟨[], 1⟩ := by
  decide

/-- C6 (amended): after `RegisterUser(id, ch1)` followed by
`RegisterUser(id, ch2)` the state is the one a single `RegisterUser(id, ch2)`
gives: the table maps `id` to `ch2` and holds no other entry for `id`. Every
routing step afterwards sends exactly to its targets; a target for `id` is
always `ch2`; `id` is a target of every broadcast and, when `id` is non-empty,
of every unicast message addressed to `id`. When `ch1` differs from `ch2` and
no other id is registered with `ch1`, no routing step changes `ch1`. -/
theorem reregister_replaces (b : Broker) (id : String) (ch1 ch2 : Nat) :
    RegisterUser (RegisterUser b id ch1) id ch2 = RegisterUser b id ch2 ∧
    (RegisterUser (RegisterUser b id ch1) id ch2).users.lookup id = some ch2 ∧
    (∀ e ∈ (RegisterUser (RegisterUser b id ch1) id ch2).users.entries,
      e.1 = id → e.2 = ch2) ∧
    ∀ msg : Message,
      (route (RegisterUser (RegisterUser b id ch1) id ch2) msg).chans
        = (targets (RegisterUser (RegisterUser b id ch1) id ch2) msg).foldl
            (fun cs e => sendTo cs e.2 msg) b.chans ∧
      (∀ e ∈ targets (RegisterUser (RegisterUser b id ch1) id ch2) msg,
        e.1 = id → e.2 = ch2) ∧
      (msg.Broadcast = true ∨ (msg.Broadcast = false ∧ msg.Recipient = id ∧ id ≠ "") →
        ⟨id, ch2⟩ ∈ targets (RegisterUser (RegisterUser b id ch1) id ch2) msg) ∧
      (ch1 ≠ ch2 → (∀ e ∈ b.users.entries, e.1 ≠ id → e.2 ≠ ch1) →
        (route (RegisterUser (RegisterUser b id ch1) id ch2) msg).chans[ch1]?
          = b.chans[ch1]?) := by
  have hcollapse : RegisterUser (RegisterUser b id ch1) id ch2 = RegisterUser b id ch2 := by
    show ({ b with users := (b.users.insert id ch1).insert id ch2 } : Broker)
      = { b with users := b.users.insert id ch2 }
    rw [AList.insert_insert]
  rw [hcollapse]
  have hlook : (RegisterUser b id ch2).users.lookup id = some ch2 :=
    AList.lookup_insert b.users
  have hentry : ∀ e ∈ (RegisterUser b id ch2).users.entries, e.1 = id → e.2 = ch2 := by
    intro e he hid
    rcases entry_of_insert b.users id ch2 e he with h | h
    · exact h.2
    · exact absurd hid h.1
  refine ⟨rfl, hlook, hentry, ?_⟩
  intro msg
  refine ⟨?_, ?_, ?_, ?_⟩
  · rw [route_eq_targets]
    rfl
  · intro e he hid
    exact hentry e (targets_subset _ msg e he) hid
  · intro hcase
    rcases hcase with hB | ⟨hB, hR, hne⟩
    · have hmem : (⟨id, ch2⟩ : Sigma (fun _ : String => Nat))
          ∈ (RegisterUser b id ch2).users.entries :=
        AList.mem_lookup_iff.mp (by rw [hlook]; exact rfl)
      simpa [targets, hB] using hmem
    · subst hR
      simp [targets, hB, hne, hlook]
  · intro hne hother
    rw [route_eq_targets]
    show ((targets (RegisterUser b id ch2) msg).foldl
      (fun cs e => sendTo cs e.2 msg) b.chans)[ch1]? = b.chans[ch1]?
    apply deliver_untouched
    intro e he
    rcases entry_of_insert b.users id ch2 e (targets_subset _ msg e he) with h | h
    · rw [h.2]
      exact Ne.symm hne
    · exact hother e h.2 h.1

theorem reregister_replaces_witness :
    ⟨"bob", 0⟩ ∈ targets (RegisterUser (RegisterUser demoBroker "bob" 1) "bob" 0)
        (unicast "alice" "bob" "hi") ∧
    (route (RegisterUser (RegisterUser (NewBroker false [⟨[], 1⟩, ⟨[], 1⟩]) "bob" 1) "bob" 0)
        (broadcast "alice" "" "hi")).chans[1]?
      = (NewBroker false [⟨[], 1⟩, ⟨[], 1⟩]).chans[1]? :=
  ⟨((reregister_replaces demoBroker "bob" 1 0).2.2.2 (unicast "alice" "bob" "hi")).2.2.1
      (Or.inr ⟨rfl, rfl, by decide⟩),
   ((reregister_replaces (NewBroker false [⟨[], 1⟩, ⟨[], 1⟩]) "bob" 1 0).2.2.2
      (broadcast "alice" "" "hi")).2.2.2 (by decide) (by simp [NewBroker])⟩

theorem SendMessage_running (pick : Bool) (b : Broker) (msg : Message)
    (hc : b.closed = false) (hx : b.ctx = false) (hi : b.inputClosed = false)
    (hl : b.input.length < inputCap) :
    SendMessage pick b msg = .returned none { b with input := b.input ++ [msg] } := by
  simp [SendMessage, sendSelect, enqueue, hc, hx, hi, hl]

theorem SendMessages_running (pick : Bool) :
    ∀ (ms : List Message) (b : Broker), b.closed = false → b.ctx = false →
      b.inputClosed = false → b.input.length + ms.length ≤ inputCap →
      SendMessages pick b ms
        = some (List.replicate ms.length none, { b with input := b.input ++ ms }) := by
  intro ms
  induction ms with
  | nil =>
    intro b _ _ _ _
    simp [SendMessages]
  | cons m ms ih =>
    intro b hc hx hi hl
    have hlt : b.input.length < inputCap := by
      simp only [List.length_cons] at hl
      omega
    have hrest : ({ b with input := b.input ++ [m] } : Broker).input.length + ms.length
        ≤ inputCap := by
      simp only [List.length_cons] at hl
      simp only [List.length_append, List.length_singleton]
      omega
    simp only [SendMessages, SendMessage_running pick b m hc hx hi hlt]
    rw [ih { b with input := b.input ++ [m] } hc hx hi hrest]
    simp [List.replicate_succ]

theorem RunStep_blocks (pick : Bool) (b : Broker) (hx : b.ctx = false)
    (hi : b.inputClosed = false) (he : b.input = []) : RunStep pick b = .blocks b := by
  simp [RunStep, hx, hi, he]

theorem RunStep_receive (pick : Bool) (b : Broker) (msg : Message) (rest : List Message)
    (hx : b.ctx = false) (he : b.input = msg :: rest) :
    RunStep pick b = .continues (route { b with input := rest } msg) := by
  simp [RunStep, onReceive, hx, he]

theorem RunFrom_drain (picks : Nat → Bool) (A : String) (a c : Nat) (hA : A ≠ "") :
    ∀ (ms : List Message) (buf : List Message) (b : Broker) (start fuel : Nat),
      b.ctx = false → b.inputClosed = false → b.input = ms →
      b.users.lookup A = some a → b.chans[a]? = some ⟨buf, c⟩ →
      (∀ m ∈ ms, m.Broadcast = false ∧ m.Recipient = A) → ms.length < fuel →
      ∃ b2, RunFrom picks fuel start b = .blocks b2 ∧
        b2.chans[a]? = some ⟨buf ++ ms.take (c - buf.length), c⟩ ∧
        b2.input = [] ∧ b2.users = b.users := by
  intro ms
  induction ms with
  | nil =>
    intro buf b start fuel hx hi he _ hch _ hf
    obtain ⟨f, rfl⟩ : ∃ f, fuel = f + 1 := ⟨fuel - 1, by simp at hf; omega⟩
    refine ⟨b, ?_, ?_, he, rfl⟩
    · simp [RunFrom, RunStep_blocks (picks start) b hx hi he]
    · simpa using hch
  | cons m ms ih =>
    intro buf b start fuel hx hi he hreg hch hms hf
    obtain ⟨f, rfl⟩ : ∃ f, fuel = f + 1 := ⟨fuel - 1, by simp at hf; omega⟩
    have hm := hms m (List.mem_cons_self m ms)
    have hR : m.Recipient ≠ "" := by rw [hm.2]; exact hA
    have hstep : route { b with input := ms } m
        = { b with input := ms, chans := sendTo b.chans a m } := by
      rw [route_unicast _ m hm.1 hR]
      show (match b.users.lookup m.Recipient with
        | some h => ({ b with input := ms, chans := sendTo b.chans h m } : Broker)
        | none => { b with input := ms }) = _
      rw [hm.2, hreg]
    have hrun : RunFrom picks (f + 1) start b
        = RunFrom picks f (start + 1) { b with input := ms, chans := sendTo b.chans a m } := by
      simp [RunFrom, RunStep_receive (picks start) b m ms hx he, hstep]
    have hflen : ms.length < f := by
      simp only [List.length_cons] at hf
      omega
    have hms2 : ∀ x ∈ ms, x.Broadcast = false ∧ x.Recipient = A :=
      fun x hxm => hms x (List.mem_cons_of_mem m hxm)
    have hsent : (sendTo b.chans a m)[a]? = some (trySend ⟨buf, c⟩ m) := by
      rw [sendTo_getElem?_self, hch]
      rfl
    rw [hrun]
    by_cases hroom : buf.length < c
    · have hts : trySend ⟨buf, c⟩ m = ⟨buf ++ [m], c⟩ := by simp [trySend, hroom]
      rw [hts] at hsent
      obtain ⟨b2, h1, h2, h3, h4⟩ := ih (buf ++ [m])
        { b with input := ms, chans := sendTo b.chans a m } (start + 1) f
        hx hi rfl hreg hsent hms2 hflen
      refine ⟨b2, h1, ?_, h3, h4⟩
      rw [h2]
      have e : c - buf.length = (c - (buf ++ [m]).length) + 1 := by
        simp only [List.length_append, List.length_singleton]
        omega
      rw [e, List.take_succ_cons]
      simp
    · have hts : trySend ⟨buf, c⟩ m = ⟨buf, c⟩ := by simp [trySend, hroom]
      rw [hts] at hsent
      obtain ⟨b2, h1, h2, h3, h4⟩ := ih buf
        { b with input := ms, chans := sendTo b.chans a m } (start + 1) f
        hx hi rfl hreg hsent hms2 hflen
      refine ⟨b2, h1, ?_, h3, h4⟩
      rw [h2]
      have e : c - buf.length = 0 := by omega
      simp [e]

/-- C8 (as stated, refuted): the subscriber with the empty id is registered
with an empty channel of capacity 1; two unicast messages addressed to it are
accepted (both calls return nil) and routed, and its channel ends empty instead
of holding the first message. -/
theorem bounded_delivery_empty_id_counterexample :
    demoBroker.users.lookup "" = some 0 ∧ demoBroker.chans[0]? = some ⟨[], 1⟩ ∧
    ∃ b1 b2,
      SendMessages false demoBroker [unicast "alice" "" "one", unicast "alice" "" "two"]
        = some ([none, none], b1) ∧
      Run (fun _ => false) 3 b1 = .blocks b2 ∧
      b2.chans[0]? = some ⟨[], 1⟩ ∧
      b2.chans[0]? ≠ some ⟨[unicast "alice" "" "one"], 1⟩ :=
  ⟨by decide, by decide, _, _, rfl, rfl, by decide, by decide⟩

/-- C8 (amended): let `A` be a non-empty subscriber id registered with an empty
channel of capacity `c` on a running broker whose ingress queue is empty. If
`k` unicast messages to `A` (`k` within the ingress capacity) are submitted
back to back, every `SendMessage` returns nil; when the run loop then routes
them while `A` reads nothing, it ends suspended on the empty queue and the
channel of `A` holds exactly the first `min c k` messages in submission
order. -/
theorem bounded_delivery (b : Broker) (A : String) (a c : Nat) (ms : List Message)
    (pick : Bool) (picks : Nat → Bool)
    (hc : b.closed = false) (hx : b.ctx = false) (hi : b.inputClosed = false)
    (he : b.input = []) (hA : A ≠ "") (hreg : b.users.lookup A = some a)
    (hch : b.chans[a]? = some ⟨[], c⟩)
    (hms : ∀ m ∈ ms, m.Broadcast = false ∧ m.Recipient = A)
    (hk : ms.length ≤ inputCap) :
    ∃ b1, SendMessages pick b ms = some (List.replicate ms.length none, b1) ∧
      ∀ fuel, ms.length < fuel →
        ∃ b2, Run picks fuel b1 = .blocks b2 ∧
          b2.chans[a]? = some ⟨ms.take (min c ms.length), c⟩ := by
  refine ⟨{ b with input := b.input ++ ms }, ?_, ?_⟩
  · apply SendMessages_running pick ms b hc hx hi
    rw [he]
    simpa using hk
  · intro fuel hf
    obtain ⟨b2, h1, h2, _, _⟩ := RunFrom_drain picks A a c hA ms []
      { b with input := b.input ++ ms } 0 fuel hx hi (by simp [he]) hreg hch hms hf
    refine ⟨b2, h1, ?_⟩
    rw [h2]
    have e : List.take (min c ms.length) ms = List.take c ms := by
      rw [List.take_eq_take]
      simp
    simp [e]

theorem bounded_delivery_witness :
    ∃ b1,
      SendMessages false scenarioBroker [unicast "bob" "A" "one", unicast "bob" "A" "two"]
        = some (List.replicate 2 none, b1) ∧
      ∀ fuel, 2 < fuel →
        ∃ b2, Run (fun _ => false) fuel b1 = .blocks b2 ∧
          b2.chans[0]? = some ⟨[unicast "bob" "A" "one"], 1⟩ :=
  bounded_delivery scenarioBroker "A" 0 1
    [unicast "bob" "A" "one", unicast "bob" "A" "two"]
    false (fun _ => false) rfl rfl rfl rfl (by decide) (by decide) (by decide)
    (by decide) (by decide)

theorem route_with_input (b : Broker) (msg : Message) (i : List Message) :
    route { b with input := i } msg = { route b msg with input := i } := by
  unfold route
  split
  · rfl
  · split
    · show (match b.users.lookup msg.Recipient with
        | some h => ({ b with input := i, chans := sendTo b.chans h msg } : Broker)
        | none => { b with input := i }) = _
      cases b.users.lookup msg.Recipient <;> rfl
    · rfl

theorem route_users (b : Broker) (msg : Message) : (route b msg).users = b.users := by
  rw [route_eq_targets]

theorem route_input (b : Broker) (msg : Message) : (route b msg).input = b.input := by
  rw [route_eq_targets]

theorem route_flags (b : Broker) (msg : Message) :
    (route b msg).closed = b.closed ∧ (route b msg).inputClosed = b.inputClosed ∧
    (route b msg).done = b.done ∧ (route b msg).ctx = b.ctx := by
  rw [route_eq_targets]
  exact ⟨rfl, rfl, rfl, rfl⟩

theorem shares_route (b : Broker) (msg : Message) (h : Nat) :
    shares (route b msg) h = shares b h := by
  unfold shares
  rw [route_users]

theorem foldl_route_users (ms : List Message) :
    ∀ b : Broker, (ms.foldl route b).users = b.users := by
  induction ms with
  | nil => intro b; rfl
  | cons m ms ih => intro b; rw [List.foldl_cons, ih, route_users]

/-- One routing step on a channel that at most one id is registered with:
the contents stay, or the routed message is appended. -/
theorem route_step_channel (b : Broker) (msg : Message) (h : Nat) (ch : Chan)
    (hc : b.chans[h]? = some ch) (hs : shares b h ≤ 1) :
    (route b msg).chans[h]? = some ch ∨
    (route b msg).chans[h]? = some ⟨ch.buf ++ [msg], ch.cap⟩ := by
  cases hB : msg.Broadcast with
  | true =>
    rw [route_broadcast_getElem? b msg hB, hc, Option.map_some']
    rcases Nat.lt_or_ge 0 (min (ch.cap - ch.buf.length) (shares b h)) with hpos | hzero
    · have e : min (ch.cap - ch.buf.length) (shares b h) = 1 := by omega
      right
      rw [e]
      rfl
    · have e : min (ch.cap - ch.buf.length) (shares b h) = 0 := by omega
      left
      rw [e]
      simp
  | false =>
    by_cases hR : msg.Recipient = ""
    · left
      rw [route_empty_recipient b msg hB hR, hc]
    · rw [route_unicast b msg hB hR]
      cases hl : b.users.lookup msg.Recipient with
      | none => exact Or.inl hc
      | some t =>
        show (sendTo b.chans t msg)[h]? = some ch ∨ (sendTo b.chans t msg)[h]? = _
        by_cases hth : t = h
        · subst hth
          rw [sendTo_getElem?_self, hc, Option.map_some']
          unfold trySend
          split
          · exact Or.inr rfl
          · exact Or.inl rfl
        · left
          rw [sendTo_getElem?_ne b.chans msg hth, hc]

theorem RunFrom_routes (picks : Nat → Bool) :
    ∀ (ms : List Message) (b : Broker) (start fuel : Nat),
      b.ctx = false → b.inputClosed = false → b.input = ms → ms.length < fuel →
      RunFrom picks fuel start b = .blocks (ms.foldl route { b with input := [] }) := by
  intro ms
  induction ms with
  | nil =>
    intro b start fuel hx hi he hf
    obtain ⟨f, rfl⟩ : ∃ f, fuel = f + 1 := ⟨fuel - 1, by simp at hf; omega⟩
    have hb : ({ b with input := [] } : Broker) = b := by
      cases b
      simp at he
      simp [he]
    simp [RunFrom, RunStep_blocks (picks start) b hx hi he, hb]
  | cons m ms ih =>
    intro b start fuel hx hi he hf
    obtain ⟨f, rfl⟩ : ∃ f, fuel = f + 1 := ⟨fuel - 1, by simp at hf; omega⟩
    have hflen : ms.length < f := by
      simp only [List.length_cons] at hf
      omega
    have hrun : RunFrom picks (f + 1) start b
        = RunFrom picks f (start + 1) (route { b with input := ms } m) := by
      simp [RunFrom, RunStep_receive (picks start) b m ms hx he]
    rw [hrun, ih (route { b with input := ms } m) (start + 1) f
      (by rw [(route_flags _ m).2.2.2]; exact hx)
      (by rw [(route_flags _ m).2.1]; exact hi)
      (by rw [route_input]) hflen]
    have e : ({ route { b with input := ms } m with input := [] } : Broker)
        = route { b with input := [] } m := by
      rw [route_with_input b m ms, route_with_input b m []]
    exact congrArg (fun x => RunOutcome.blocks (List.foldl route x ms)) e

/-- C11 (as stated, refuted): the ids `"a"` and `"b"` stay registered with the
same channel; the run loop dequeues one broadcast message and the channel ends
holding it twice, which is no subsequence of the dequeue sequence. -/
theorem fifo_shared_channel_counterexample :
    sharedBroker.users.lookup "a" = some 0 ∧ sharedBroker.users.lookup "b" = some 0 ∧
    ([broadcast "carol" "" "hi"].foldl route sharedBroker).chans[0]?
      = some ⟨[broadcast "carol" "" "hi", broadcast "carol" "" "hi"], 2⟩ ∧
    ¬ [broadcast "carol" "" "hi", broadcast "carol" "" "hi"].Sublist
        [broadcast "carol" "" "hi"] := by
  decide

/-- C11 (amended): for every sequence `ms` of messages the run loop dequeues
and every channel that at most one subscriber id is registered with, the
messages placed into the channel form a subsequence of `ms` in the same
relative order, without duplication; the routing table is the same afterwards.
For a run loop started on the queue `ms` this is the state in which it
suspends. -/
theorem fifo_per_subscriber (ms : List Message) (b : Broker) (h : Nat) (ch : Chan)
    (hc : b.chans[h]? = some ch) (hs : shares b h ≤ 1) :
    (∃ placed, (ms.foldl route b).chans[h]? = some ⟨ch.buf ++ placed, ch.cap⟩ ∧
      placed.Sublist ms ∧ (ms.foldl route b).users = b.users) ∧
    (b.ctx = false → b.inputClosed = false → b.input = ms →
      ∀ picks fuel, ms.length < fuel →
        ∃ b2 placed, Run picks fuel b = .blocks b2 ∧
          b2.chans[h]? = some ⟨ch.buf ++ placed, ch.cap⟩ ∧ placed.Sublist ms) := by
  have main : ∀ (ms : List Message) (b : Broker) (ch : Chan),
      b.chans[h]? = some ch → shares b h ≤ 1 →
      ∃ placed, (ms.foldl route b).chans[h]? = some ⟨ch.buf ++ placed, ch.cap⟩ ∧
        placed.Sublist ms := by
    intro ms
    induction ms with
    | nil =>
      intro b ch hc _
      exact ⟨[], by simpa using hc, List.Sublist.slnil⟩
    | cons m ms ih =>
      intro b ch hc hs
      have hs2 : shares (route b m) h ≤ 1 := by rw [shares_route]; exact hs
      rcases route_step_channel b m h ch hc hs with hkeep | happ
      · obtain ⟨placed, h1, h2⟩ := ih (route b m) ch hkeep hs2
        exact ⟨placed, h1, h2.cons m⟩
      · obtain ⟨placed, h1, h2⟩ := ih (route b m) ⟨ch.buf ++ [m], ch.cap⟩ happ hs2
        refine ⟨m :: placed, ?_, h2.cons₂ m⟩
        rw [List.foldl_cons, h1]
        simp
  refine ⟨?_, ?_⟩
  · obtain ⟨placed, h1, h2⟩ := main ms b ch hc hs
    exact ⟨placed, h1, h2, foldl_route_users ms b⟩
  · intro hx hi he picks fuel hf
    obtain ⟨placed, h1, h2⟩ := main ms { b with input := [] } ch hc hs
    exact ⟨_, placed, RunFrom_routes picks ms b 0 fuel hx hi he hf, h1, h2⟩

theorem fifo_per_subscriber_witness :
    (∃ placed, ([unicast "alice" "bob" "one", broadcast "carol" "" "two"].foldl route
          demoBroker).chans[1]? = some ⟨[] ++ placed, 2⟩ ∧
      placed.Sublist [unicast "alice" "bob" "one", broadcast "carol" "" "two"] ∧
      ([unicast "alice" "bob" "one", broadcast "carol" "" "two"].foldl route
          demoBroker).users = demoBroker.users) ∧
    ∃ b2 placed, Run (fun _ => false) 1 demoBroker = .blocks b2 ∧
      b2.chans[1]? = some ⟨[] ++ placed, 2⟩ ∧ placed.Sublist [] :=
  ⟨(fifo_per_subscriber [unicast "alice" "bob" "one", broadcast "carol" "" "two"]
      demoBroker 1 ⟨[], 2⟩ (by decide) (by decide)).1,
   (fifo_per_subscriber [] demoBroker 1 ⟨[], 2⟩ (by decide) (by decide)).2
      rfl rfl rfl (fun _ => false) 1 (by decide)⟩

/-- C12: on a running broker the cancellation case of the run loop sets
`closed`, seals the ingress queue and closes the done signal, and the loop
returns; on a broker that is already closed it changes nothing and closes
nothing again; so a second finalization of a finalized broker is the identity.
With the context cancelled and the cancellation case selected, the run loop
step is this finalization. -/
theorem finalize_once (b : Broker) :
    (b.closed = false → b.inputClosed = false → b.done = false →
      onCancel b = .returns { b with closed := true, inputClosed := true, done := true }) ∧
    (b.closed = true → onCancel b = .returns b) ∧
    (∀ b1, onCancel b = .returns b1 →
      b1.closed = true ∧ onCancel b1 = .returns b1) ∧
    (b.ctx = true → RunStep true b = onCancel b) := by
  refine ⟨?_, ?_, ?_, ?_⟩
  · intro hc hi hd
    simp [onCancel, hc, hi, hd]
  · intro hc
    simp [onCancel, hc]
  · intro b1 h1
    cases hc : b.closed with
    | true =>
      have e : b1 = b := by
        simp [onCancel, hc] at h1
        exact h1.symm
      subst e
      exact ⟨hc, by simp [onCancel, hc]⟩
    | false =>
      cases hi : b.inputClosed <;> cases hd : b.done <;>
        simp [onCancel, hc, hi, hd] at h1
      subst h1
      exact ⟨rfl, by simp [onCancel]⟩
  · intro hx
    cases hr : (!b.input.isEmpty || b.inputClosed) <;> simp [RunStep, hx, hr]

theorem finalize_once_witness :
    onCancel cancelledBroker = .returns closedBroker ∧
    onCancel closedBroker = .returns closedBroker ∧
    (closedBroker.closed = true ∧ onCancel closedBroker = .returns closedBroker) ∧
    RunStep true cancelledBroker = onCancel cancelledBroker :=
  ⟨(finalize_once cancelledBroker).1 rfl rfl rfl,
   (finalize_once closedBroker).2.1 rfl,
   (finalize_once cancelledBroker).2.2.1 closedBroker rfl,
   (finalize_once cancelledBroker).2.2.2 rfl⟩

/-- C13 (as stated, refuted): the context is cancelled, the closed flag is not
set and the ingress queue has free capacity; with the send case selected
`SendMessage` enqueues the message and returns nil. -/
theorem cancel_beats_enqueue_counterexample :
    cancelledBroker.ctx = true ∧ cancelledBroker.closed = false ∧
    cancelledBroker.input.length < inputCap ∧
    SendMessage false cancelledBroker (unicast "alice" "bob" "hi")
      = .returned none { cancelledBroker with input := [unicast "alice" "bob" "hi"] } :=
  ⟨rfl, rfl, by decide, rfl⟩

/-- C13 (amended): when the context is already cancelled as `SendMessage`
reaches its `select` (closed flag not set, queue not sealed): with a full
ingress queue it returns the canceled error and enqueues nothing; with free
capacity both cases are ready and either may be taken, so it returns the
canceled error without enqueuing or it enqueues the message and returns nil. -/
theorem cancel_races_enqueue (b : Broker) (msg : Message)
    (hc : b.closed = false) (hx : b.ctx = true) (hi : b.inputClosed = false) :
    (b.input.length < inputCap →
      SendMessage true b msg = .returned (some context.Canceled) b ∧
      SendMessage false b msg = .returned none { b with input := b.input ++ [msg] }) ∧
    (inputCap ≤ b.input.length →
      ∀ pick, SendMessage pick b msg = .returned (some context.Canceled) b) := by
  refine ⟨?_, ?_⟩
  · intro hl
    refine ⟨?_, ?_⟩
    · simp [SendMessage, sendSelect, hc, hx, hi, hl]
    · simp [SendMessage, sendSelect, enqueue, hc, hx, hi, hl]
  · intro hl pick
    have hl2 : ¬ b.input.length < inputCap := by omega
    simp [SendMessage, sendSelect, hc, hx, hi, hl2]

theorem cancel_races_enqueue_witness :
    (SendMessage true cancelledBroker (unicast "alice" "bob" "hi")
        = .returned (some context.Canceled) cancelledBroker ∧
      SendMessage false cancelledBroker (unicast "alice" "bob" "hi")
        = .returned none { cancelledBroker with
            input := cancelledBroker.input ++ [unicast "alice" "bob" "hi"] }) ∧
    ∀ pick, SendMessage pick { saturatedBroker with ctx := true } (unicast "alice" "bob" "hi")
      = .returned (some context.Canceled) { saturatedBroker with ctx := true } :=
  ⟨(cancel_races_enqueue cancelledBroker (unicast "alice" "bob" "hi") rfl rfl rfl).1
      (by decide),
   (cancel_races_enqueue { saturatedBroker with ctx := true } (unicast "alice" "bob" "hi")
      rfl rfl rfl).2 (by decide)⟩

/-- C14 (the code at the failing interleaving): `SendMessage` passes its closed
check on a broker whose context is cancelled, the run loop then finalizes
(sealing the ingress queue), and the `select` of `SendMessage` takes its send
case on the sealed channel: the call panics instead of returning. -/
theorem send_race_panics :
    cancelledBroker.closed = false ∧
    RunStep true cancelledBroker = .returns closedBroker ∧
    closedBroker.inputClosed = true ∧
    sendSelect false closedBroker (unicast "alice" "bob" "hi") = .panics ∧
    SendMessageRace true false cancelledBroker (unicast "alice" "bob" "hi") = .panics :=
  ⟨rfl, rfl, rfl, rfl, rfl⟩

theorem SendMessage_input_le (pick : Bool) (b b1 : Broker) (msg : Message)
    (e : Option GoError) (hle : b.input.length ≤ inputCap)
    (h : SendMessage pick b msg = .returned e b1) : b1.input.length ≤ inputCap := by
  revert h
  unfold SendMessage sendSelect enqueue
  cases b.closed <;> cases b.ctx <;> cases b.inputClosed <;> cases pick <;>
    by_cases hl : b.input.length < inputCap <;> simp [hl] <;>
    (intro _ hb; subst hb; first | exact hle | (simp; omega))

theorem RunStep_input_le (pick : Bool) (b : Broker) :
    match RunStep pick b with
    | .continues b1 => b1.input.length < b.input.length
    | .returns b1 => b1.input = b.input
    | .blocks b1 => b1.input = b.input
    | .panics => True := by
  unfold RunStep onCancel onReceive
  cases b.ctx <;> cases pick <;> cases b.closed <;> cases b.inputClosed <;> cases b.done <;>
    cases hin : b.input <;> simp [route_input, hin]

/-- C15: on a running, uncancelled broker whose ingress queue holds
`inputCap = 100` messages, `SendMessage` suspends: it returns no error and
changes nothing. Once the run loop has dequeued a message the same call
returns nil and appends; once the context is cancelled it returns the canceled
error. No `SendMessage` that returns, and no run loop pass, takes the queue
beyond 100 messages, and `NewBroker` starts it empty. -/
theorem backpressure (b : Broker) (msg : Message)
    (hc : b.closed = false) (hx : b.ctx = false) (hi : b.inputClosed = false)
    (hfull : b.input.length = inputCap) :
    inputCap = 100 ∧
    (∀ pick, SendMessage pick b msg = .blocks) ∧
    (∀ runPick pick, ∃ b1, RunStep runPick b = .continues b1 ∧
      b1.input.length + 1 = inputCap ∧
      SendMessage pick b1 msg = .returned none { b1 with input := b1.input ++ [msg] }) ∧
    (∀ pick, SendMessage pick { b with ctx := true } msg
      = .returned (some context.Canceled) { b with ctx := true }) ∧
    (∀ pick (b0 b1 : Broker) (m : Message) (e : Option GoError),
      b0.input.length ≤ inputCap → SendMessage pick b0 m = .returned e b1 →
      b1.input.length ≤ inputCap) ∧
    (∀ pick (b0 b1 : Broker), RunStep pick b0 = .continues b1 →
      b1.input.length < b0.input.length) ∧
    (∀ ctx chans, (NewBroker ctx chans).input = []) := by
  have hnl : ¬ b.input.length < inputCap := by omega
  refine ⟨rfl, ?_, ?_, ?_, ?_, ?_, fun _ _ => rfl⟩
  · intro pick
    simp [SendMessage, sendSelect, hc, hx, hi, hnl]
  · intro runPick pick
    cases hin : b.input with
    | nil =>
      rw [hin] at hfull
      simp [inputCap] at hfull
    | cons m rest =>
      have hlen : rest.length + 1 = inputCap := by
        rw [hin] at hfull
        simpa using hfull
      refine ⟨route { b with input := rest } m,
        RunStep_receive runPick b m rest hx hin, ?_, ?_⟩
      · rw [route_input]
        exact hlen
      · apply SendMessage_running
        · rw [(route_flags _ m).1]; exact hc
        · rw [(route_flags _ m).2.2.2]; exact hx
        · rw [(route_flags _ m).2.1]; exact hi
        · rw [route_input]
          show rest.length < inputCap
          omega
  · intro pick
    simp [SendMessage, sendSelect, hc, hi, hnl]
  · intro pick b0 b1 m e hle h
    exact SendMessage_input_le pick b0 b1 m e hle h
  · intro pick b0 b1 h
    have := RunStep_input_le pick b0
    rw [h] at this
    exact this

theorem backpressure_witness :
    inputCap = 100 ∧
    (∀ pick, SendMessage pick saturatedBroker (unicast "alice" "bob" "late") = .blocks) ∧
    (∀ runPick pick, ∃ b1, RunStep runPick saturatedBroker = .continues b1 ∧
      b1.input.length + 1 = inputCap ∧
      SendMessage pick b1 (unicast "alice" "bob" "late")
        = .returned none { b1 with input := b1.input ++ [unicast "alice" "bob" "late"] }) ∧
    (∀ pick, SendMessage pick { saturatedBroker with ctx := true } (unicast "alice" "bob" "late")
      = .returned (some context.Canceled) { saturatedBroker with ctx := true }) :=
  ⟨(backpressure saturatedBroker (unicast "alice" "bob" "late") rfl rfl rfl (by decide)).1,
   (backpressure saturatedBroker (unicast "alice" "bob" "late") rfl rfl rfl (by decide)).2.1,
   (backpressure saturatedBroker (unicast "alice" "bob" "late") rfl rfl rfl (by decide)).2.2.1,
   (backpressure saturatedBroker (unicast "alice" "bob" "late") rfl rfl rfl
      (by decide)).2.2.2.1⟩

theorem targets_broadcast (b : Broker) (msg : Message) (hB : msg.Broadcast = true) :
    targets b msg = b.users.entries := by
  simp [targets, hB]

/-- C16: for messages with `Broadcast = true` the recipient field plays no
part in routing: whatever `Recipient` is replaced by, the step sends for exactly
the same table entries, namely all registered ones, and every channel grows by
the same number of messages. -/
theorem broadcast_ignores_recipient (b : Broker) (msg : Message) (r : String)
    (hB : msg.Broadcast = true) :
    targets b msg = b.users.entries ∧
    targets b { msg with Recipient := r } = targets b msg ∧
    (∀ h : Nat, ((route b { msg with Recipient := r }).chans[h]?).map (fun ch => ch.buf.length)
      = ((route b msg).chans[h]?).map (fun ch => ch.buf.length)) ∧
    (route b { msg with Recipient := r }).chans
      = b.users.entries.foldl (fun cs e => sendTo cs e.2 { msg with Recipient := r }) b.chans := by
  have hB2 : ({ msg with Recipient := r } : Message).Broadcast = true := hB
  refine ⟨targets_broadcast b msg hB, ?_, ?_, ?_⟩
  · rw [targets_broadcast b msg hB, targets_broadcast b _ hB2]
  · intro h
    rw [route_broadcast_getElem? b _ hB2, route_broadcast_getElem? b msg hB]
    cases b.chans[h]? <;> simp
  · rw [route_broadcast b _ hB2]

theorem broadcast_ignores_recipient_witness :
    targets demoBroker (broadcast "alice" "" "hi") = demoBroker.users.entries ∧
    targets demoBroker { broadcast "alice" "" "hi" with Recipient := "bob" }
      = targets demoBroker (broadcast "alice" "" "hi") ∧
    targets demoBroker { broadcast "alice" "" "hi" with Recipient := "nobody" }
      = targets demoBroker (broadcast "alice" "" "hi") :=
  ⟨(broadcast_ignores_recipient demoBroker (broadcast "alice" "" "hi") "bob" rfl).1,
   (broadcast_ignores_recipient demoBroker (broadcast "alice" "" "hi") "bob" rfl).2.1,
   (broadcast_ignores_recipient demoBroker (broadcast "alice" "" "hi") "nobody" rfl).2.1⟩

theorem onCancel_flags (b : Broker) :
    match onCancel b with
    | .continues b1 => False ∧ b1 = b
    | .returns b1 => b1.closed = true ∧ (b.inputClosed = true → b1.inputClosed = true) ∧
        b1.users = b.users ∧ b1.input = b.input ∧ b1.chans = b.chans ∧
        (b.closed = false → b1.inputClosed = true)
    | .blocks b1 => False ∧ b1 = b
    | .panics => True := by
  unfold onCancel
  cases hc : b.closed <;> cases hi : b.inputClosed <;> cases hd : b.done <;> simp [hi, hc]

theorem onReceive_flags (b : Broker) :
    match onReceive b with
    | .continues b1 => b1.closed = b.closed ∧ b1.inputClosed = b.inputClosed ∧
        b1.users = b.users
    | .returns b1 => b1 = b
    | .blocks b1 => False ∧ b1 = b
    | .panics => False := by
  unfold onReceive
  cases hin : b.input with
  | nil => simp
  | cons m rest =>
    exact ⟨(route_flags _ m).1, (route_flags _ m).2.1, route_users _ m⟩

/-- No pass of the run loop clears the closed flag or reopens a sealed ingress
queue, and none touches the routing table. -/
theorem RunStep_flags (pick : Bool) (b b1 : Broker)
    (h : RunStep pick b = .continues b1 ∨ RunStep pick b = .returns b1 ∨
      RunStep pick b = .blocks b1) :
    (b.closed = true → b1.closed = true) ∧
    (b.inputClosed = true → b1.inputClosed = true) ∧ b1.users = b.users := by
  have hC := onCancel_flags b
  have hR := onReceive_flags b
  have key : RunStep pick b = .blocks b ∨ RunStep pick b = onCancel b ∨
      RunStep pick b = onReceive b := by
    unfold RunStep
    cases b.ctx <;> cases (!b.input.isEmpty || b.inputClosed) <;> cases pick <;> simp
  rcases key with hk | hk | hk
  · rw [hk] at h
    simp at h
    subst h
    exact ⟨id, id, rfl⟩
  · rw [hk] at h
    rcases h with h | h | h <;> rw [h] at hC
    · exact absurd hC.1 id
    · exact ⟨fun _ => hC.1, hC.2.1, hC.2.2.1⟩
    · exact absurd hC.1 id
  · rw [hk] at h
    rcases h with h | h | h <;> rw [h] at hR
    · exact ⟨fun hc => by rw [hR.1]; exact hc, fun hi => by rw [hR.2.1]; exact hi, hR.2.2⟩
    · subst hR
      exact ⟨id, id, rfl⟩
    · exact absurd hR.1 id

theorem RunFrom_cancel (picks : Nat → Bool) (fuel start : Nat) (b : Broker)
    (hx : b.ctx = true) (hp : picks start = true) :
    RunFrom picks (fuel + 1) start b = onCancel b := by
  have hstep : RunStep (picks start) b = onCancel b := by
    rw [hp]
    cases hr : (!b.input.isEmpty || b.inputClosed) <;> simp [RunStep, hx, hr]
  have hC := onCancel_flags b
  unfold RunFrom
  rw [hstep]
  cases hout : onCancel b with
  | continues b1 =>
    rw [hout] at hC
    exact absurd hC.1 id
  | returns b1 => rfl
  | blocks b1 => rfl
  | panics => rfl

/-- C21: once the closed flag is true, no pass of the run loop, no
`SendMessage`, `RegisterUser` or `UnregisterUser` sets it back to false, and a
sealed ingress queue stays sealed. The pass of the run loop that takes the
cancellation case is its last pass: the loop returns with the flag set, the
queue sealed, and the queued messages and every subscriber channel exactly as
they were, so what is still queued at finalization is never delivered. -/
theorem lifecycle_monotonic (b : Broker) (hc : b.closed = true) :
    (∀ pick b1, (RunStep pick b = .continues b1 ∨ RunStep pick b = .returns b1 ∨
        RunStep pick b = .blocks b1) →
      b1.closed = true ∧ (b.inputClosed = true → b1.inputClosed = true)) ∧
    (∀ pick msg, SendMessage pick b msg = .returned (some context.Canceled) b) ∧
    (∀ id ch, (RegisterUser b id ch).closed = true ∧
      (RegisterUser b id ch).inputClosed = b.inputClosed) ∧
    (∀ id, (UnregisterUser b id).closed = true ∧
      (UnregisterUser b id).inputClosed = b.inputClosed) ∧
    (∀ (b0 : Broker) (picks : Nat → Bool) (fuel start : Nat),
      b0.ctx = true → picks start = true →
      RunFrom picks (fuel + 1) start b0 = onCancel b0) ∧
    (∀ b0 b1 : Broker, onCancel b0 = .returns b1 →
      b1.closed = true ∧ b1.input = b0.input ∧ b1.chans = b0.chans ∧
      b1.users = b0.users ∧ (b0.closed = false → b1.inputClosed = true)) := by
  refine ⟨?_, ?_, fun _ _ => ⟨hc, rfl⟩, fun _ => ⟨hc, rfl⟩, ?_, ?_⟩
  · intro pick b1 h
    have := RunStep_flags pick b b1 h
    exact ⟨this.1 hc, this.2.1⟩
  · intro pick msg
    simp [SendMessage, hc]
  · intro b0 picks fuel start hx hp
    exact RunFrom_cancel picks fuel start b0 hx hp
  · intro b0 b1 h
    have hC := onCancel_flags b0
    rw [h] at hC
    exact ⟨hC.1, hC.2.2.2.1, hC.2.2.2.2.1, hC.2.2.1, hC.2.2.2.2.2⟩

theorem lifecycle_monotonic_witness :
    (∀ pick msg, SendMessage pick closedBroker msg
      = .returned (some context.Canceled) closedBroker) ∧
    (RegisterUser closedBroker "carol" 1).closed = true ∧
    (UnregisterUser closedBroker "bob").closed = true ∧
    Run (fun _ => true) 1 { cancelledBroker with input := [unicast "alice" "bob" "hi"] }
      = onCancel { cancelledBroker with input := [unicast "alice" "bob" "hi"] } ∧
    (closedBroker.closed = true ∧ closedBroker.input = cancelledBroker.input ∧
      closedBroker.chans = cancelledBroker.chans ∧ closedBroker.users = cancelledBroker.users ∧
      (cancelledBroker.closed = false → closedBroker.inputClosed = true)) :=
  ⟨(lifecycle_monotonic closedBroker rfl).2.1,
   ((lifecycle_monotonic closedBroker rfl).2.2.1 "carol" 1).1,
   ((lifecycle_monotonic closedBroker rfl).2.2.2.1 "bob").1,
   (lifecycle_monotonic closedBroker rfl).2.2.2.2.1
      { cancelledBroker with input := [unicast "alice" "bob" "hi"] } (fun _ => true) 0 0 rfl rfl,
   (lifecycle_monotonic closedBroker rfl).2.2.2.2.2 cancelledBroker closedBroker rfl⟩

/-- C22: `RegisterUser(id, ch)` maps `id` to `ch` and changes nothing else:
the entries of all other ids, every subscriber channel (the one behind `ch`
included), the ingress queue and the flags are as before, so nothing queued or
routed earlier reaches `ch` through the registration itself. -/
theorem register_frame (b : Broker) (id : String) (ch : Nat) :
    (RegisterUser b id ch).users.lookup id = some ch ∧
    (∀ other, other ≠ id →
      (RegisterUser b id ch).users.lookup other = b.users.lookup other) ∧
    (RegisterUser b id ch).chans = b.chans ∧
    (RegisterUser b id ch).input = b.input ∧
    (RegisterUser b id ch).closed = b.closed ∧
    (RegisterUser b id ch).inputClosed = b.inputClosed ∧
    (RegisterUser b id ch).done = b.done ∧
    (RegisterUser b id ch).ctx = b.ctx :=
  ⟨AList.lookup_insert b.users, fun _ hne => AList.lookup_insert_ne hne,
    rfl, rfl, rfl, rfl, rfl, rfl⟩

theorem register_frame_witness :
    (RegisterUser demoBroker "carol" 1).users.lookup "bob" = demoBroker.users.lookup "bob" :=
  (register_frame demoBroker "carol" 1).2.1 "bob" (by decide)

/-- What one routing step does to a channel: it appends `k` copies of the
routed message, at most one per id registered with the channel and never more
than the free capacity. -/
theorem route_channel_count (b : Broker) (msg : Message) (h : Nat) (ch : Chan)
    (hc : b.chans[h]? = some ch) :
    ∃ k, k ≤ shares b h ∧ k ≤ ch.cap - ch.buf.length ∧
      (route b msg).chans[h]? = some ⟨ch.buf ++ List.replicate k msg, ch.cap⟩ := by
  have hzero : b.chans[h]? = some ⟨ch.buf ++ List.replicate 0 msg, ch.cap⟩ := by
    simpa using hc
  cases hB : msg.Broadcast with
  | true =>
    refine ⟨min (ch.cap - ch.buf.length) (shares b h), Nat.min_le_right _ _,
      Nat.min_le_left _ _, ?_⟩
    rw [route_broadcast_getElem? b msg hB, hc, Option.map_some']
  | false =>
    by_cases hR : msg.Recipient = ""
    · refine ⟨0, Nat.zero_le _, Nat.zero_le _, ?_⟩
      rw [route_empty_recipient b msg hB hR]
      exact hzero
    · rw [route_unicast b msg hB hR]
      cases hl : b.users.lookup msg.Recipient with
      | none => exact ⟨0, Nat.zero_le _, Nat.zero_le _, hzero⟩
      | some t =>
        show ∃ k, k ≤ shares b h ∧ k ≤ ch.cap - ch.buf.length ∧
          (sendTo b.chans t msg)[h]? = _
        by_cases hth : t = h
        · subst hth
          by_cases hroom : ch.buf.length < ch.cap
          · refine ⟨1, shares_pos b hl, by omega, ?_⟩
            rw [sendTo_getElem?_self, hc, Option.map_some']
            simp [trySend, hroom]
          · refine ⟨0, Nat.zero_le _, Nat.zero_le _, ?_⟩
            rw [sendTo_getElem?_self, hc, Option.map_some']
            simp [trySend, hroom]
        · refine ⟨0, Nat.zero_le _, Nat.zero_le _, ?_⟩
          rw [sendTo_getElem?_ne b.chans msg hth]
          exact hzero

/-- C26 (as stated, refuted): the ids `"a"` and `"b"` are registered with the
same channel of capacity 2; the routing step for one broadcast message leaves
the channel holding the message twice, which is neither the old contents nor
the old contents with the message appended. -/
theorem routing_step_shared_channel_counterexample :
    sharedBroker.chans[0]? = some ⟨[], 2⟩ ∧
    onReceive { sharedBroker with input := [broadcast "carol" "" "hi"] }
      = .continues (route sharedBroker (broadcast "carol" "" "hi")) ∧
    (route sharedBroker (broadcast "carol" "" "hi")).chans[0]?
      = some ⟨[broadcast "carol" "" "hi", broadcast "carol" "" "hi"], 2⟩ ∧
    (route sharedBroker (broadcast "carol" "" "hi")).chans[0]? ≠ some ⟨[], 2⟩ ∧
    (route sharedBroker (broadcast "carol" "" "hi")).chans[0]?
      ≠ some ⟨[] ++ [broadcast "carol" "" "hi"], 2⟩ :=
  ⟨by decide, rfl, by decide, by decide, by decide⟩

/-- C26 (amended): a routing step of the run loop leaves the routing table and
the closed flag as they are and removes exactly the head of the ingress queue;
each channel's contents afterwards are the old contents followed by `k` copies
of the routed message, where `k` is at most the number of ids registered with
that channel and at most its free capacity. So a channel within capacity stays
within capacity, and a channel registered under at most one id is unchanged or
has the message appended once. -/
theorem routing_step_frame (b : Broker) (msg : Message) (rest : List Message)
    (hin : b.input = msg :: rest) :
    ∃ b1, onReceive b = .continues b1 ∧
      (∀ pick, b.ctx = false → RunStep pick b = .continues b1) ∧
      b1.users = b.users ∧ b1.closed = b.closed ∧ b1.input = rest ∧
      b1.chans.length = b.chans.length ∧
      ∀ (h : Nat) (ch : Chan), b.chans[h]? = some ch →
        ∃ k, k ≤ shares b h ∧
          b1.chans[h]? = some ⟨ch.buf ++ List.replicate k msg, ch.cap⟩ ∧
          (ch.buf.length ≤ ch.cap → ch.buf.length + k ≤ ch.cap) ∧
          (shares b h ≤ 1 → b1.chans[h]? = some ch ∨
            b1.chans[h]? = some ⟨ch.buf ++ [msg], ch.cap⟩) := by
  refine ⟨route { b with input := rest } msg, ?_, ?_, route_users _ msg,
    (route_flags _ msg).1, route_input _ msg, ?_, ?_⟩
  · simp [onReceive, hin]
  · intro pick hx
    exact RunStep_receive pick b msg rest hx hin
  · rw [route_eq_targets]
    exact deliver_length msg _ b.chans
  · intro h ch hc
    obtain ⟨k, hk1, hk2, hk3⟩ := route_channel_count { b with input := rest } msg h ch hc
    refine ⟨k, hk1, hk3, fun hle => by omega, ?_⟩
    intro hs
    exact route_step_channel { b with input := rest } msg h ch hc hs

theorem routing_step_frame_witness :
    ∃ b1, onReceive { demoBroker with input := [unicast "alice" "bob" "hi"] } = .continues b1 ∧
      (∀ pick, demoBroker.ctx = false →
        RunStep pick { demoBroker with input := [unicast "alice" "bob" "hi"] }
          = .continues b1) ∧
      b1.users = demoBroker.users ∧ b1.closed = demoBroker.closed ∧ b1.input = [] ∧
      b1.chans.length = demoBroker.chans.length ∧
      ∀ (h : Nat) (ch : Chan), demoBroker.chans[h]? = some ch →
        ∃ k, k ≤ shares demoBroker h ∧
          b1.chans[h]? = some ⟨ch.buf ++ List.replicate k (unicast "alice" "bob" "hi"), ch.cap⟩ ∧
          (ch.buf.length ≤ ch.cap → ch.buf.length + k ≤ ch.cap) ∧
          (shares demoBroker h ≤ 1 → b1.chans[h]? = some ch ∨
            b1.chans[h]? = some ⟨ch.buf ++ [unicast "alice" "bob" "hi"], ch.cap⟩) :=
  routing_step_frame { demoBroker with input := [unicast "alice" "bob" "hi"] }
    (unicast "alice" "bob" "hi") [] rfl

end chatcore

theorem goLen_empty : goLen "" = 0 := rfl

theorem utf8Size_ascii (c : Char) (hc : c.toNat < 128) : c.utf8Size = 1 := by
  unfold Char.utf8Size
  have h : c.val ≤ 127 := by
    rw [UInt32.le_def]
    show c.val.toNat ≤ 127
    have : c.val.toNat = c.toNat := rfl
    omega
  simp [h]

theorem utf8ByteSize_go_ascii (cs : List Char) (h : ∀ c ∈ cs, c.toNat < 128) :
    String.utf8ByteSize.go cs = cs.length := by
  rw [String.utf8ByteSize.go_eq]
  induction cs with
  | nil => rfl
  | cons c cs ih =>
    rw [String.utf8Len_cons, ih (fun x hx => h x (List.mem_cons_of_mem c hx)),
      utf8Size_ascii c (h c (List.mem_cons_self c cs))]
    rfl

/-- On strings of ASCII characters `len` counts the characters. -/
theorem goLen_ascii (s : String) (h : ∀ c ∈ s.toList, c.toNat < 128) :
    goLen s = s.length := by
  cases s with
  | mk cs => exact utf8ByteSize_go_ascii cs h

theorem matchesClass_iff (cls : Char → Bool) (s : String) :
    matchesClass cls s = true ↔ ∃ c ∈ s.toList, cls c = true := by
  simp [matchesClass, List.any_eq_true]

namespace userdomain

theorem ValidateName_none_iff (name : String) :
    ValidateName name = none ↔
      2 ≤ goLen (strings.TrimSpace name) ∧ goLen (strings.TrimSpace name) ≤ 50 := by
  unfold ValidateName
  by_cases h0 : strings.TrimSpace name = ""
  · simp [h0, goLen_empty]
  · by_cases h1 : goLen (strings.TrimSpace name) < 2
    · simp [h0, h1]
    · by_cases h2 : goLen (strings.TrimSpace name) > 50
      · simp [h0, h1, h2]
      · simp [h0, h1, h2]
        omega

/-- `NewUser` succeeds exactly when the three validations pass; the name
check passes exactly for trimmed names of 2 to 50 bytes. -/
theorem NewUser_ok_iff (now : Int) (email name password : String) :
    (∃ u, NewUser now email name password = .ok u) ↔
      ValidateEmail email = none ∧
      (2 ≤ goLen (strings.TrimSpace name) ∧ goLen (strings.TrimSpace name) ≤ 50) ∧
      ValidatePassword password = none := by
  rw [← ValidateName_none_iff]
  unfold NewUser
  cases ValidateEmail email <;> cases ValidateName name <;>
    cases ValidatePassword password <;> simp

/-- C17 (the code at the failing input): a name of 51 letters, with a valid
email and password, is rejected by `ValidateName` and so by `NewUser`, with the
error "name must be at most 50 characters"; the longest accepted name has 50. -/
theorem name_of_51_rejected :
    name51.length = 51 ∧ goLen name51 = 51 ∧ strings.TrimSpace name51 = name51 ∧
    ValidateEmail "bob@example.com" = none ∧ ValidatePassword "Passw0rdX" = none ∧
    ValidateName name51 = some ⟨"name must be at most 50 characters"⟩ ∧
    NewUser 0 "bob@example.com" name51 "Passw0rdX"
      = .error ⟨"name must be at most 50 characters"⟩ ∧
    NewUser 0 "bob@example.com" name50 "Passw0rdX"
      = .ok { ID := 0, Email := "bob@example.com", Name := name50, Password := "Passw0rdX",
              CreatedAt := 0, UpdatedAt := 0 } :=
  ⟨by decide, by decide, by decide, by decide, by decide, by decide, rfl, rfl⟩

end userdomain

namespace security

/-- What `ValidatePassword` computes: nil exactly when `len` (the byte
length) is at least 6 and the password contains a rune of `a-z`/`A-Z` and a
rune of `0-9`; the empty password gets "password cannot be empty". For ASCII
passwords the byte length is the number of characters. -/
theorem password_rule (p : String) :
    (ValidatePassword p = none ↔
      6 ≤ goLen p ∧
      (∃ c ∈ p.toList, ('a' ≤ c ∧ c ≤ 'z') ∨ ('A' ≤ c ∧ c ≤ 'Z')) ∧
      (∃ c ∈ p.toList, '0' ≤ c ∧ c ≤ '9')) ∧
    (ValidatePassword p ≠ none → ∃ e, ValidatePassword p = some e) ∧
    ValidatePassword "" = some ⟨"password cannot be empty"⟩ ∧
    ((∀ c ∈ p.toList, c.toNat < 128) → goLen p = p.length) := by
  have hL : matchesClass isLetterAZ p = true ↔
      ∃ c ∈ p.toList, ('a' ≤ c ∧ c ≤ 'z') ∨ ('A' ≤ c ∧ c ≤ 'Z') := by
    rw [matchesClass_iff]
    simp [isLetterAZ, isLowerAZ, isUpperAZ]
  have hD : matchesClass isDigit09 p = true ↔ ∃ c ∈ p.toList, '0' ≤ c ∧ c ≤ '9' := by
    rw [matchesClass_iff]
    simp [isDigit09]
  refine ⟨?_, ?_, rfl, goLen_ascii p⟩
  · rw [← hL, ← hD]
    unfold ValidatePassword
    by_cases h0 : p = ""
    · subst h0
      simp [goLen_empty]
    · by_cases h1 : goLen p < 6
      · simp [h0, h1]
      · cases hl : matchesClass isLetterAZ p <;> cases hd : matchesClass isDigit09 p <;>
          simp [h0, h1]
        omega
  · intro hne
    cases h : ValidatePassword p with
    | none => exact absurd h hne
    | some e => exact ⟨e, rfl⟩

theorem password_rule_witness :
    ValidatePassword "abc123" = none ∧
    (∃ e, ValidatePassword "abcdef" = some e) ∧
    goLen "abc123" = "abc123".length :=
  ⟨(password_rule "abc123").1.mpr
      ⟨by decide, ⟨'a', by decide, Or.inl (by decide)⟩, ⟨'1', by decide, by decide⟩⟩,
   (password_rule "abcdef").2.1 (by decide),
   (password_rule "abc123").2.2.2 (by decide)⟩

/-- C18 (the code at the failing input): the password `ééé1a` has 5
characters, one of them a letter `a` and one a digit; `len` counts its 8 bytes,
so `ValidatePassword` returns nil for a password shorter than the 6 characters
its requirements comment asks for. The password `пароль1`, 7 characters with
six letters and a digit, is rejected as having no letter. -/
theorem five_character_password_accepted :
    "ééé1a".length = 5 ∧ goLen "ééé1a" = 8 ∧
    ValidatePassword "ééé1a" = none ∧
    "пароль1".length = 7 ∧
    ValidatePassword "пароль1" = some ⟨"password must contain at least one letter"⟩ := by
  decide

end security

namespace user

theorem containsAtFrom_iff (cs : List Char) : containsAtFrom cs = true ↔ '@' ∈ cs := by
  induction cs with
  | nil => simp [containsAtFrom]
  | cons c cs ih =>
    unfold containsAtFrom
    by_cases hc : c = '@'
    · simp [hc]
    · simp [hc, ih]
      exact fun h => absurd h.symm hc

/-- C19: `User.Validate` returns nil if and only if `Name` is non-empty,
`Email` contains `@` and `ID` is non-empty; otherwise it returns the error of
the first failing check, in the order name, email, id. -/
theorem validate_rule (u : User) :
    (u.Validate = none ↔ u.Name ≠ "" ∧ '@' ∈ u.Email.toList ∧ u.ID ≠ "") ∧
    (u.Name = "" → u.Validate = some ⟨"name is required"⟩) ∧
    (u.Name ≠ "" → '@' ∉ u.Email.toList → u.Validate = some ⟨"invalid email"⟩) ∧
    (u.Name ≠ "" → '@' ∈ u.Email.toList → u.ID = "" →
      u.Validate = some ⟨"id is required"⟩) := by
  have hat : containsAt u.Email = true ↔ '@' ∈ u.Email.toList := containsAtFrom_iff _
  have hempty : u.Email = "" → '@' ∉ u.Email.toList := by
    intro h
    rw [h]
    simp
  unfold User.Validate
  by_cases hn : u.Name = ""
  · simp [hn]
  · by_cases ha : '@' ∈ u.Email.toList
    · have hne : u.Email ≠ "" := fun h => hempty h ha
      have ha2 : '@' ∈ u.Email.data := ha
      by_cases hi : u.ID = ""
      · simp [hn, ha2, hat.mpr ha, hne, hi]
      · simp [hn, ha2, hat.mpr ha, hne, hi]
    · have hc : containsAt u.Email = false := by
        cases h : containsAt u.Email
        · rfl
        · exact absurd (hat.mp h) ha
      have ha2 : '@' ∉ u.Email.data := ha
      simp [hn, ha2, hc]

theorem validate_rule_witness :
    User.Validate ⟨"", "a@b", "1"⟩ = some ⟨"name is required"⟩ ∧
    User.Validate ⟨"bob", "ab", ""⟩ = some ⟨"invalid email"⟩ ∧
    User.Validate ⟨"bob", "a@b", ""⟩ = some ⟨"id is required"⟩ ∧
    User.Validate ⟨"bob", "a@b", "1"⟩ = none :=
  ⟨(validate_rule ⟨"", "a@b", "1"⟩).2.1 rfl,
   (validate_rule ⟨"bob", "ab", ""⟩).2.2.1 (by decide) (by decide),
   (validate_rule ⟨"bob", "a@b", ""⟩).2.2.2 (by decide) (by decide) rfl,
   (validate_rule ⟨"bob", "a@b", "1"⟩).1.mpr ⟨by decide, by decide, by decide⟩⟩

theorem GetUser_of_lookup (m : UserManager) (id : String) :
    m.GetUser id = match m.users.lookup id with
      | some u => (u, none)
      | none => ({ Name := "", Email := "", ID := "" }, some ⟨"not found"⟩) := rfl

/-- C20: on a manager whose context is not cancelled, `AddUser(u)` returns nil
and a following `GetUser(u.ID)` returns exactly `u` and no error, whatever was
stored under that id before, while lookups of other ids are unaffected; after
a following `RemoveUser(u.ID)`, which returns nil, `GetUser(u.ID)` fails with
"not found" and the other ids are still unaffected. -/
theorem registry_round_trip (m : UserManager) (u : User) (hctx : m.ctx ≠ some true) :
    (m.AddUser u).1 = none ∧
    (m.AddUser u).2.GetUser u.ID = (u, none) ∧
    (∀ id, id ≠ u.ID → (m.AddUser u).2.GetUser id = m.GetUser id) ∧
    ((m.AddUser u).2.RemoveUser u.ID).1 = none ∧
    ((m.AddUser u).2.RemoveUser u.ID).2.GetUser u.ID
      = ({ Name := "", Email := "", ID := "" }, some ⟨"not found"⟩) ∧
    (∀ id, id ≠ u.ID →
      ((m.AddUser u).2.RemoveUser u.ID).2.GetUser id = m.GetUser id) := by
  have hadd : m.AddUser u = (none, { m with users := m.users.insert u.ID u }) := by
    unfold UserManager.AddUser
    cases hc : m.ctx with
    | none => rfl
    | some d =>
      cases d with
      | false => rfl
      | true => exact absurd hc hctx
  have hrem : UserManager.RemoveUser { m with users := m.users.insert u.ID u } u.ID
      = (none, { m with users := (m.users.insert u.ID u).erase u.ID }) := by
    unfold UserManager.RemoveUser
    simp [AList.lookup_insert]
  rw [hadd]
  refine ⟨rfl, ?_, ?_, ?_, ?_, ?_⟩
  · simp [GetUser_of_lookup, AList.lookup_insert]
  · intro id hne
    simp [GetUser_of_lookup, AList.lookup_insert_ne hne]
  · rw [hrem]
  · rw [hrem]
    simp [GetUser_of_lookup, AList.lookup_erase]
  · intro id hne
    rw [hrem]
    simp [GetUser_of_lookup, AList.lookup_erase_ne hne, AList.lookup_insert_ne hne]

theorem registry_round_trip_witness :
    (NewUserManager.AddUser ⟨"bob", "bob@example.com", "u1"⟩).1 = none ∧
    (NewUserManager.AddUser ⟨"bob", "bob@example.com", "u1"⟩).2.GetUser "u1"
      = (⟨"bob", "bob@example.com", "u1"⟩, none) ∧
    ((NewUserManager.AddUser ⟨"bob", "bob@example.com", "u1"⟩).2.RemoveUser "u1").2.GetUser "u1"
      = ({ Name := "", Email := "", ID := "" }, some ⟨"not found"⟩) :=
  ⟨(registry_round_trip NewUserManager ⟨"bob", "bob@example.com", "u1"⟩ (by decide)).1,
   (registry_round_trip NewUserManager ⟨"bob", "bob@example.com", "u1"⟩ (by decide)).2.1,
   (registry_round_trip NewUserManager ⟨"bob", "bob@example.com", "u1"⟩ (by decide)).2.2.2.2.1⟩

end user

namespace user

/-- C27: `RemoveUser(id)` for an id that is not stored returns the error
"not found" and leaves the manager unchanged; for a stored id it returns nil
and removes exactly that record, every other record staying as it was. It is
not idempotent: repeated right after a successful removal it fails with
"not found". -/
theorem remove_user_rule (m : UserManager) (id : String) :
    (m.users.lookup id = none → m.RemoveUser id = (some ⟨"not found"⟩, m)) ∧
    (∀ u, m.users.lookup id = some u →
      (m.RemoveUser id).1 = none ∧
      (m.RemoveUser id).2.users.lookup id = none ∧
      (∀ other, other ≠ id →
        (m.RemoveUser id).2.users.lookup other = m.users.lookup other) ∧
      (m.RemoveUser id).2.ctx = m.ctx ∧
      (m.RemoveUser id).2.RemoveUser id = (some ⟨"not found"⟩, (m.RemoveUser id).2)) := by
  refine ⟨?_, ?_⟩
  · intro h
    simp [UserManager.RemoveUser, h]
  · intro u h
    have hrem : m.RemoveUser id = (none, { m with users := m.users.erase id }) := by
      simp [UserManager.RemoveUser, h]
    rw [hrem]
    refine ⟨rfl, AList.lookup_erase id m.users, ?_, rfl, ?_⟩
    · intro other hne
      exact AList.lookup_erase_ne hne
    · simp [UserManager.RemoveUser, AList.lookup_erase]

theorem remove_user_rule_witness :
    NewUserManager.RemoveUser "u1" = (some ⟨"not found"⟩, NewUserManager) ∧
    ((NewUserManager.AddUser ⟨"bob", "bob@example.com", "u1"⟩).2.RemoveUser "u1").1 = none ∧
    ((NewUserManager.AddUser ⟨"bob", "bob@example.com", "u1"⟩).2.RemoveUser "u1").2.users.lookup
      "u1" = none :=
  ⟨(remove_user_rule NewUserManager "u1").1 (by decide),
   ((remove_user_rule (NewUserManager.AddUser ⟨"bob", "bob@example.com", "u1"⟩).2 "u1").2
      ⟨"bob", "bob@example.com", "u1"⟩ (by decide)).1,
   ((remove_user_rule (NewUserManager.AddUser ⟨"bob", "bob@example.com", "u1"⟩).2 "u1").2
      ⟨"bob", "bob@example.com", "u1"⟩ (by decide)).2.1⟩

end user

namespace userdomain

/-- What `ValidatePassword` computes: nil exactly when `len` (the byte
length) is at least 8 and the password contains a rune of `A-Z`, one of `a-z`
and one of `0-9`; the checks are made, and their errors returned, in the order
length, uppercase, lowercase, digit. For ASCII passwords the byte length is
the number of characters. -/
theorem password_rule_ordered (p : String) :
    (ValidatePassword p = none ↔
      8 ≤ goLen p ∧ (∃ c ∈ p.toList, 'A' ≤ c ∧ c ≤ 'Z') ∧
      (∃ c ∈ p.toList, 'a' ≤ c ∧ c ≤ 'z') ∧ (∃ c ∈ p.toList, '0' ≤ c ∧ c ≤ '9')) ∧
    (goLen p < 8 →
      ValidatePassword p = some ⟨"password must be at least 8 characters"⟩) ∧
    (8 ≤ goLen p → ¬ (∃ c ∈ p.toList, 'A' ≤ c ∧ c ≤ 'Z') →
      ValidatePassword p = some ⟨"password must contain at least one uppercase letter"⟩) ∧
    (8 ≤ goLen p → (∃ c ∈ p.toList, 'A' ≤ c ∧ c ≤ 'Z') →
      ¬ (∃ c ∈ p.toList, 'a' ≤ c ∧ c ≤ 'z') →
      ValidatePassword p = some ⟨"password must contain at least one lowercase letter"⟩) ∧
    (8 ≤ goLen p → (∃ c ∈ p.toList, 'A' ≤ c ∧ c ≤ 'Z') →
      (∃ c ∈ p.toList, 'a' ≤ c ∧ c ≤ 'z') → ¬ (∃ c ∈ p.toList, '0' ≤ c ∧ c ≤ '9') →
      ValidatePassword p = some ⟨"password must contain at least one number"⟩) ∧
    ((∀ c ∈ p.toList, c.toNat < 128) → goLen p = p.length) := by
  have hU : matchesClass isUpperAZ p = true ↔ ∃ c ∈ p.toList, 'A' ≤ c ∧ c ≤ 'Z' := by
    rw [matchesClass_iff]
    simp [isUpperAZ]
  have hL : matchesClass isLowerAZ p = true ↔ ∃ c ∈ p.toList, 'a' ≤ c ∧ c ≤ 'z' := by
    rw [matchesClass_iff]
    simp [isLowerAZ]
  have hD : matchesClass isDigit09 p = true ↔ ∃ c ∈ p.toList, '0' ≤ c ∧ c ≤ '9' := by
    rw [matchesClass_iff]
    simp [isDigit09]
  rw [← hU, ← hL, ← hD]
  unfold ValidatePassword
  refine ⟨?_, ?_, ?_, ?_, ?_, goLen_ascii p⟩
  · by_cases h1 : goLen p < 8
    · simp [h1]
    · cases matchesClass isUpperAZ p <;> cases matchesClass isLowerAZ p <;>
        cases matchesClass isDigit09 p <;> simp [h1]
      omega
  · intro h1
    simp [h1]
  · intro h1 hu
    have h1n : ¬ goLen p < 8 := by omega
    simp [h1n, hu]
  · intro h1 hu hl
    have h1n : ¬ goLen p < 8 := by omega
    simp [h1n, hu, hl]
  · intro h1 hu hl hd
    have h1n : ¬ goLen p < 8 := by omega
    simp [h1n, hu, hl, hd]

theorem password_rule_ordered_witness :
    ValidatePassword "Passw0rdX" = none ∧
    ValidatePassword "Pw0" = some ⟨"password must be at least 8 characters"⟩ ∧
    ValidatePassword "passw0rdx" = some ⟨"password must contain at least one uppercase letter"⟩ ∧
    ValidatePassword "PASSW0RDX" = some ⟨"password must contain at least one lowercase letter"⟩ ∧
    ValidatePassword "PasswordX" = some ⟨"password must contain at least one number"⟩ ∧
    goLen "Passw0rdX" = "Passw0rdX".length :=
  ⟨(password_rule_ordered "Passw0rdX").1.mpr
      ⟨by decide, ⟨'P', by decide, by decide⟩, ⟨'a', by decide, by decide⟩,
        ⟨'0', by decide, by decide⟩⟩,
   (password_rule_ordered "Pw0").2.1 (by decide),
   (password_rule_ordered "passw0rdx").2.2.1 (by decide) (by decide),
   (password_rule_ordered "PASSW0RDX").2.2.2.1 (by decide) ⟨'P', by decide, by decide⟩
      (by decide),
   (password_rule_ordered "PasswordX").2.2.2.2.1 (by decide) ⟨'P', by decide, by decide⟩
      ⟨'a', by decide, by decide⟩ (by decide),
   (password_rule_ordered "Passw0rdX").2.2.2.2.2 (by decide)⟩

/-- C23 (the code at the failing input): the password `Pässw0r` has 7
characters, among them an uppercase letter, a lowercase letter and a digit;
`len` counts its 8 bytes, so `ValidatePassword` returns nil for a password
shorter than the 8 characters the requirements comment on `NewUser` and its own
error text ask for. -/
theorem seven_character_password_accepted :
    "Pässw0r".length = 7 ∧ goLen "Pässw0r" = 8 ∧
    (∃ c ∈ "Pässw0r".toList, 'A' ≤ c ∧ c ≤ 'Z') ∧
    (∃ c ∈ "Pässw0r".toList, 'a' ≤ c ∧ c ≤ 'z') ∧
    (∃ c ∈ "Pässw0r".toList, '0' ≤ c ∧ c ≤ '9') ∧
    ValidatePassword "Pässw0r" = none :=
  ⟨by decide, by decide, ⟨'P', by decide, by decide⟩, ⟨'s', by decide, by decide⟩,
    ⟨'0', by decide, by decide⟩, by decide⟩

end userdomain

namespace models

/-- C25: for every `CreatePostRequest`, `req.Validate()` and
`req.ToPost().Validate()` give the same verdict, nil or the same error message;
the verdict is nil exactly when the trimmed title has length (`len`) at least
5, `UserID > 0`, and the content is non-blank whenever `Published` is true. -/
theorem post_validation_agrees (req : CreatePostRequest) (now : Int) :
    (req.ToPost now).Validate = req.Validate ∧
    (req.Validate = none ↔
      5 ≤ goLen (strings.TrimSpace req.Title) ∧ 0 < req.UserID ∧
      (req.Published = true → strings.TrimSpace req.Content ≠ "")) := by
  refine ⟨rfl, ?_⟩
  unfold CreatePostRequest.Validate
  by_cases h0 : strings.TrimSpace req.Title = ""
  · simp [h0, goLen_empty]
  · by_cases h1 : goLen (strings.TrimSpace req.Title) < 5
    · simp [h0, h1]
    · by_cases h2 : req.UserID ≤ 0
      · simp [h0, h1, h2]
      · cases hp : req.Published <;>
          by_cases h3 : strings.TrimSpace req.Content = "" <;>
          simp [h0, h1, h2, h3] <;> omega

end models

theorem char_le_iff (a c : Char) : a ≤ c ↔ a.toNat ≤ c.toNat := by
  rw [Char.le_def, UInt32.le_def]
  exact Iff.rfl

theorem toNat_of_eq {c d : Char} (h : c = d) : c.toNat = d.toNat := by rw [h]

theorem unicodeIsSpace_false_of_range (c : Char) (h1 : 32 < c.toNat) (h2 : c.toNat < 133) :
    unicodeIsSpace c = false := by
  have e1 : c ≠ '\t' := fun h => by have := toNat_of_eq h; simp at this; omega
  have e2 : c ≠ '\n' := fun h => by have := toNat_of_eq h; simp at this; omega
  have e3 : c ≠ '\r' := fun h => by have := toNat_of_eq h; simp at this; omega
  have e4 : c ≠ ' ' := fun h => by have := toNat_of_eq h; simp at this; omega
  unfold unicodeIsSpace
  simp [e1, e2, e3, e4]
  omega

theorem lower_of_upper_code (n : Nat) (h1 : 65 ≤ n) (h2 : n ≤ 90) :
    isLowerAZ (asciiToLower (Char.ofNat n)) = true := by
  interval_cases n <;> decide

theorem asciiToLower_upper (c : Char) (h : isUpperAZ c = true) :
    isLowerAZ (asciiToLower c) = true := by
  unfold isUpperAZ at h
  simp only [Bool.and_eq_true, decide_eq_true_eq, char_le_iff] at h
  have a := h.1
  have b := h.2
  simp at a b
  have := lower_of_upper_code c.toNat a b
  rwa [Char.ofNat_toNat] at this

theorem asciiToLower_not_upper (c : Char) (h : isUpperAZ c = false) : asciiToLower c = c := by
  unfold isUpperAZ at h
  unfold asciiToLower
  have : ¬ ('A' ≤ c ∧ c ≤ 'Z') := by
    intro hc
    simp [hc.1, hc.2] at h
  rw [if_neg this]

theorem asciiToLower_letter (c : Char) (h : isLetterAZ c = true) :
    isLetterAZ (asciiToLower c) = true := by
  cases hu : isUpperAZ c with
  | true => simp [isLetterAZ, asciiToLower_upper c hu]
  | false => rw [asciiToLower_not_upper c hu]; exact h

theorem asciiToLower_local (c : Char) (h : userdomain.emailLocalChar c = true) :
    userdomain.emailLocalChar (asciiToLower c) = true := by
  cases hu : isUpperAZ c with
  | true => simp [userdomain.emailLocalChar, isLetterAZ, asciiToLower_upper c hu]
  | false => rw [asciiToLower_not_upper c hu]; exact h

theorem asciiToLower_domain (c : Char) (h : userdomain.emailDomainChar c = true) :
    userdomain.emailDomainChar (asciiToLower c) = true := by
  cases hu : isUpperAZ c with
  | true => simp [userdomain.emailDomainChar, isLetterAZ, asciiToLower_upper c hu]
  | false => rw [asciiToLower_not_upper c hu]; exact h

theorem emailLocalChar_range (c : Char) (h : userdomain.emailLocalChar c = true) :
    32 < c.toNat ∧ c.toNat < 133 := by
  unfold userdomain.emailLocalChar isLetterAZ isLowerAZ isUpperAZ isDigit09 at h
  simp only [Bool.or_eq_true, Bool.and_eq_true, decide_eq_true_eq, char_le_iff] at h
  have sym : ∀ d : Char, c = d → c.toNat = d.toNat := fun d hd => toNat_of_eq hd
  rcases h with ((((((h | h) | h) | h) | h) | h) | h)
  · rcases h with h | h
    · have a := h.1
      have b := h.2
      simp at a b
      omega
    · have a := h.1
      have b := h.2
      simp at a b
      omega
  · have a := h.1
    have b := h.2
    simp at a b
    omega
  · have e := sym _ h
    simp at e
    omega
  · have e := sym _ h
    simp at e
    omega
  · have e := sym _ h
    simp at e
    omega
  · have e := sym _ h
    simp at e
    omega
  · have e := sym _ h
    simp at e
    omega

theorem emailDomainChar_local (c : Char) (h : userdomain.emailDomainChar c = true) :
    userdomain.emailLocalChar c = true := by
  unfold userdomain.emailDomainChar at h
  unfold userdomain.emailLocalChar
  simp only [Bool.or_eq_true, decide_eq_true_eq] at h ⊢
  rcases h with ((h | h) | h) | h
  · exact Or.inl (Or.inl (Or.inl (Or.inl (Or.inl (Or.inl h)))))
  · exact Or.inl (Or.inl (Or.inl (Or.inl (Or.inl (Or.inr h)))))
  · exact Or.inl (Or.inl (Or.inl (Or.inl (Or.inr h))))
  · exact Or.inr h

theorem isLetterAZ_local (c : Char) (h : isLetterAZ c = true) :
    userdomain.emailLocalChar c = true := by
  simp [userdomain.emailLocalChar, h]

theorem TrimSpace_toList (s : String) :
    (strings.TrimSpace s).toList
      = List.rdropWhile unicodeIsSpace (s.toList.dropWhile unicodeIsSpace) := rfl

theorem TrimSpace_of_no_space (l : List Char) (h : ∀ c ∈ l, unicodeIsSpace c = false) :
    strings.TrimSpace ⟨l⟩ = ⟨l⟩ := by
  have h1 : l.dropWhile unicodeIsSpace = l := by
    rw [List.dropWhile_eq_self_iff]
    intro hl
    rw [h _ (List.get_mem l 0 hl)]
    simp
  have h2 : List.rdropWhile unicodeIsSpace l = l := by
    rw [List.rdropWhile_eq_self_iff]
    intro hl
    rw [h _ (List.getLast_mem hl)]
    simp
  show (⟨List.rdropWhile unicodeIsSpace (l.dropWhile unicodeIsSpace)⟩ : String) = ⟨l⟩
  rw [h1, h2]

theorem dropWhile_of_prefix (p : Char → Bool) (r m : List Char) (hpre : r <+: m)
    (hhead : ∀ x, m.head? = some x → p x = false) : r.dropWhile p = r := by
  cases r with
  | nil => rfl
  | cons x xs =>
    obtain ⟨t, ht⟩ := hpre
    subst ht
    have hx : p x = false := hhead x (by simp)
    simp [List.dropWhile, hx]

theorem dropWhile_rdropWhile_dropWhile (p : Char → Bool) (l : List Char) :
    (List.rdropWhile p (l.dropWhile p)).dropWhile p = List.rdropWhile p (l.dropWhile p) := by
  apply dropWhile_of_prefix p _ (l.dropWhile p) (List.rdropWhile_prefix p _)
  intro x hx
  have := List.head?_dropWhile_not p l
  rw [hx] at this
  exact this

theorem TrimSpace_idem (s : String) :
    strings.TrimSpace (strings.TrimSpace s) = strings.TrimSpace s := by
  show (⟨List.rdropWhile unicodeIsSpace
      ((List.rdropWhile unicodeIsSpace (s.toList.dropWhile unicodeIsSpace)).dropWhile
        unicodeIsSpace)⟩ : String) = ⟨List.rdropWhile unicodeIsSpace
          (s.toList.dropWhile unicodeIsSpace)⟩
  rw [dropWhile_rdropWhile_dropWhile, List.rdropWhile_idempotent]

namespace userdomain

/-- The language of the email pattern: a non-empty local part, `@`, a
non-empty domain part, a dot and two or more letters. -/
theorem emailTailAt_sound (rest : List Char) (j : Nat) (h : emailTailAt rest j = true) :
    ∃ D T, rest = '@' :: (D ++ '.' :: T) ∧ D ≠ [] ∧ (∀ c ∈ D, emailDomainChar c = true) ∧
      2 ≤ T.length ∧ ∀ c ∈ T, isLetterAZ c = true := by
  unfold emailTailAt at h
  cases rest with
  | nil => simp at h
  | cons c r =>
    by_cases hc : c = '@'
    · subst hc
      simp only [if_true] at h
      cases hd : r.drop j with
      | nil => simp [hd] at h
      | cons d t =>
        by_cases hdot : d = '.'
        · subst hdot
          simp only [hd, if_true, Bool.and_eq_true, Bool.not_eq_true', decide_eq_true_eq,
            List.all_eq_true] at h
          refine ⟨r.take j, t, ?_, ?_, h.1.1.2, h.1.2, h.2⟩
          · rw [← hd, List.take_append_drop]
          · intro he
            have := h.1.1.1
            simp [he] at this
        · simp [hd, hdot] at h
    · simp [hc] at h

theorem emailTailAt_complete (D T : List Char) (hD : D ≠ [])
    (hDc : ∀ c ∈ D, emailDomainChar c = true) (hT : 2 ≤ T.length)
    (hTc : ∀ c ∈ T, isLetterAZ c = true) :
    emailTailAt ('@' :: (D ++ '.' :: T)) D.length = true := by
  unfold emailTailAt
  simp only [if_true, List.drop_left, List.take_left, Bool.and_eq_true, Bool.not_eq_true',
    decide_eq_true_eq, List.all_eq_true]
  refine ⟨⟨⟨?_, hDc⟩, hT⟩, hTc⟩
  cases D with
  | nil => exact absurd rfl hD
  | cons x xs => rfl

theorem emailRe_iff (s : List Char) :
    emailRe s = true ↔
      ∃ L D T, s = L ++ '@' :: (D ++ '.' :: T) ∧ L ≠ [] ∧
        (∀ c ∈ L, emailLocalChar c = true) ∧ D ≠ [] ∧
        (∀ c ∈ D, emailDomainChar c = true) ∧ 2 ≤ T.length ∧ ∀ c ∈ T, isLetterAZ c = true := by
  constructor
  · intro h
    unfold emailRe at h
    simp only [List.any_eq_true, List.mem_range, Bool.and_eq_true, Bool.not_eq_true',
      List.all_eq_true] at h
    obtain ⟨i, _, j, _, ⟨hne, hL⟩, htail⟩ := h
    obtain ⟨D, T, hrest, hD, hDc, hT, hTc⟩ := emailTailAt_sound _ j htail
    refine ⟨s.take i, D, T, ?_, ?_, hL, hD, hDc, hT, hTc⟩
    · rw [← hrest, List.take_append_drop]
    · intro he
      simp [he] at hne
  · rintro ⟨L, D, T, rfl, hL, hLc, hD, hDc, hT, hTc⟩
    unfold emailRe
    simp only [List.any_eq_true, List.mem_range, Bool.and_eq_true, Bool.not_eq_true',
      List.all_eq_true]
    refine ⟨L.length, by simp; omega, D.length, by simp; omega, ⟨?_, ?_⟩, ?_⟩
    · cases L with
      | nil => exact absurd rfl hL
      | cons x xs => simp
    · simpa using hLc
    · simpa using emailTailAt_complete D T hD hDc hT hTc

theorem emailRe_lower (s : List Char) (h : emailRe s = true) :
    emailRe (s.map asciiToLower) = true ∧
    (∀ c ∈ s.map asciiToLower, unicodeIsSpace c = false) ∧ s ≠ [] := by
  obtain ⟨L, D, T, rfl, hL, hLc, hD, hDc, hT, hTc⟩ := (emailRe_iff s).mp h
  have hat : asciiToLower '@' = '@' := by decide
  have hdot : asciiToLower '.' = '.' := by decide
  refine ⟨?_, ?_, ?_⟩
  · rw [emailRe_iff]
    refine ⟨L.map asciiToLower, D.map asciiToLower, T.map asciiToLower, ?_, ?_, ?_, ?_, ?_,
      ?_, ?_⟩
    · simp [hat, hdot]
    · simpa using hL
    · intro c hc
      obtain ⟨x, hx, rfl⟩ := List.mem_map.mp hc
      exact asciiToLower_local x (hLc x hx)
    · simpa using hD
    · intro c hc
      obtain ⟨x, hx, rfl⟩ := List.mem_map.mp hc
      exact asciiToLower_domain x (hDc x hx)
    · simpa using hT
    · intro c hc
      obtain ⟨x, hx, rfl⟩ := List.mem_map.mp hc
      exact asciiToLower_letter x (hTc x hx)
  · intro c hc
    obtain ⟨x, hx, rfl⟩ := List.mem_map.mp hc
    have hrange : ∀ y, emailLocalChar y = true → unicodeIsSpace (asciiToLower y) = false := by
      intro y hy
      have := emailLocalChar_range _ (asciiToLower_local y hy)
      exact unicodeIsSpace_false_of_range _ this.1 this.2
    simp only [List.mem_append, List.mem_cons] at hx
    rcases hx with hx | hx | hx | hx | hx
    · exact hrange x (hLc x hx)
    · subst hx
      decide
    · exact hrange x (emailDomainChar_local x (hDc x hx))
    · subst hx
      decide
    · exact hrange x (isLetterAZ_local x (hTc x hx))
  · cases L with
    | nil => exact absurd rfl hL
    | cons x xs => simp

theorem ValidateEmail_none_iff (email : String) :
    ValidateEmail email = none ↔
      strings.TrimSpace email ≠ "" ∧ emailRe (strings.TrimSpace email).toList = true := by
  unfold ValidateEmail
  by_cases h0 : strings.TrimSpace email = ""
  · simp [h0]
  · cases hr : emailRe (strings.TrimSpace email).toList <;> simp [h0] <;> exact hr

/-- A validated email stays valid after trimming and lower-casing. -/
theorem ValidateEmail_normalised (email : String) (h : ValidateEmail email = none) :
    ValidateEmail (strings.ToLower (strings.TrimSpace email)) = none := by
  obtain ⟨_, hre⟩ := (ValidateEmail_none_iff email).mp h
  obtain ⟨h1, h2, h3⟩ := emailRe_lower _ hre
  have htrim : strings.TrimSpace (strings.ToLower (strings.TrimSpace email))
      = strings.ToLower (strings.TrimSpace email) :=
    TrimSpace_of_no_space _ h2
  rw [ValidateEmail_none_iff, htrim]
  refine ⟨?_, h1⟩
  intro he
  have : (strings.ToLower (strings.TrimSpace email)).toList = [] := by rw [he]; rfl
  have hm : (strings.TrimSpace email).toList.map asciiToLower = [] := this
  exact h3 (List.map_eq_nil_iff.mp hm)

theorem ValidateName_trimmed (name : String) :
    ValidateName (strings.TrimSpace name) = ValidateName name := by
  unfold ValidateName
  simp only [TrimSpace_idem]

/-- C24: whenever `NewUser(email, name, password)` succeeds, the returned
user passes `User.Validate`, its `Email` is the lower-cased, whitespace-trimmed
input email, its `Name` the trimmed input name and its `Password` the input
unchanged; both time stamps are the construction time. -/
theorem constructed_user_valid (now : Int) (email name password : String) (u : User)
    (h : NewUser now email name password = .ok u) :
    u.Validate = none ∧
    u.Email = strings.ToLower (strings.TrimSpace email) ∧
    u.Name = strings.TrimSpace name ∧
    u.Password = password ∧ u.CreatedAt = now ∧ u.UpdatedAt = now := by
  unfold NewUser at h
  cases he : ValidateEmail email with
  | some err => simp [he] at h
  | none =>
    cases hn : ValidateName name with
    | some err => simp [he, hn] at h
    | none =>
      cases hp : ValidatePassword password with
      | some err => simp [he, hn, hp] at h
      | none =>
        simp only [he, hn, hp, Except.ok.injEq] at h
        subst h
        refine ⟨?_, rfl, rfl, rfl, rfl, rfl⟩
        unfold User.Validate
        simp only [ValidateEmail_normalised email he, ValidateName_trimmed, hn, hp]

theorem constructed_user_valid_witness :
    User.Validate { ID := 0, Email := "bob@example.com", Name := "Bob",
                    Password := "Passw0rdX", CreatedAt := 7, UpdatedAt := 7 } = none ∧
    "bob@example.com" = strings.ToLower (strings.TrimSpace " Bob@Example.COM ") ∧
    "Bob" = strings.TrimSpace "  Bob\t" ∧ "Passw0rdX" = "Passw0rdX" ∧
    (7 : Int) = 7 ∧ (7 : Int) = 7 :=
  constructed_user_valid 7 " Bob@Example.COM " "  Bob\t" "Passw0rdX"
    { ID := 0, Email := "bob@example.com", Name := "Bob", Password := "Passw0rdX",
      CreatedAt := 7, UpdatedAt := 7 } rfl

end userdomain
